import Mathlib

/-!
# SFTP remote-storage backend (`pkg/new_storage/sftp.go`)

A shallow embedding of the SFTP backend of clickhouse-backup.  The Go methods of `SFTP`
(`Connect`, `StatFile`, `DeleteFile`, `DeleteDirectory`, `Walk`, `GetFileReader`, `PutFile`)
are translated to state-passing Lean functions.  The collaborators they call are modelled
explicitly:

* Go's `path` package (`Clean`, `Join`, `Dir`) and `filepath.Rel`, by their documented rules;
* the remote store behind the `pkg/sftp` client, as a finite map from resolved paths to nodes,
  together with a log of every request the client issues and whether it succeeded;
* the `kr/fs` walker returned by `client.Walk`, as the stack machine it is.

Conventions of the model:

* the store has no links, and the server resolves every path lexically from the top of the
  store;
* a nil `*lib_sftp.Client` is `none`, and calling a method on it is a run-time panic;
* the visitor passed to `Walk` has a state of its own and does not touch the store;
* the recursion of `DeleteDirectory` and the loop of the recursive `Walk` take a budget; the
  theorems give a budget that is enough.
-/

set_option autoImplicit false

/-! ## Go's `path` package -/

namespace path

/-- Split a byte string at every slash; the result always has at least one segment. -/
def splitSlash : List Char → List (List Char)
  | [] => [[]]
  | c :: cs =>
    if c = '/' then [] :: splitSlash cs
    else
      match splitSlash cs with
      | [] => [[c]]
      | s :: ss => (c :: s) :: ss

/-- One step of the lexical clean-up: `stack` holds the segments kept so far, innermost first.
Empty and `.` segments are dropped; `..` removes the preceding kept segment, is dropped at the
top of a rooted path, and is kept at the start of a relative one. -/
def cleanStep (rooted : Bool) (stack : List (List Char)) (seg : List Char) : List (List Char) :=
  if seg = [] then stack
  else if seg = ['.'] then stack
  else if seg = ['.', '.'] then
    match stack with
    | [] => if rooted then [] else [seg]
    | top :: rest => if top = ['.', '.'] then seg :: top :: rest else rest
  else seg :: stack

/-- The segments that survive cleaning, outermost first. -/
def cleanSegs (rooted : Bool) (segs : List (List Char)) : List (List Char) :=
  (segs.foldl (cleanStep rooted) []).reverse

/-- Whether the path starts with a slash. -/
def isRooted : List Char → Bool
  | '/' :: _ => true
  | _ => false

/-- Put kept segments back together. -/
def render (rooted : Bool) (segs : List (List Char)) : List Char :=
  if rooted then '/' :: List.intercalate ['/'] segs
  else if segs = [] then ['.'] else List.intercalate ['/'] segs

/-- `path.Clean` on bytes. -/
def cleanChars (p : List Char) : List Char :=
  if p = [] then ['.'] else render (isRooted p) (cleanSegs (isRooted p) (splitSlash p))

/-- `path.Clean`: the shortest path name equivalent to `p` by purely lexical processing. -/
def Clean (p : String) : String := String.mk (cleanChars p.data)

/-- `path.Join` of two elements: empty elements are ignored, the rest are joined with a slash
and cleaned; two empty elements give the empty string. -/
def Join (a b : String) : String :=
  if a.data = [] then (if b.data = [] then "" else Clean b)
  else Clean (String.mk (a.data ++ '/' :: b.data))

/-- The part of the path up to and including the last slash (`path.Split`, first result). -/
def splitDir : List Char → List Char
  | [] => []
  | c :: cs =>
    if cs.contains '/' then c :: splitDir cs
    else if c = '/' then ['/'] else []

/-- `path.Dir`: all but the last element of the path, cleaned. -/
def Dir (p : String) : String := Clean (String.mk (splitDir p.data))

end path

namespace filepath

/-- Drop the longest common prefix of two segment lists. -/
def dropCommon : List (List Char) → List (List Char) → List (List Char) × List (List Char)
  | a :: as, b :: bs => if a = b then dropCommon as bs else (a :: as, b :: bs)
  | as, bs => (as, bs)

/-- `filepath.Rel` (on slash-separated paths): a relative path that names `targ` when joined to
`base`.  Fails, returning the empty string with an error flag, when one path is rooted and the
other is not, or when `base` climbs above a point that `targ` does not. -/
def Rel (base targ : String) : String × Bool :=
  let b := path.cleanChars base.data
  let t := path.cleanChars targ.data
  if b = t then (".", false)
  else if path.isRooted b ≠ path.isRooted t then ("", true)
  else
    let bs := path.cleanSegs (path.isRooted b) (path.splitSlash b)
    let ts := path.cleanSegs (path.isRooted t) (path.splitSlash t)
    let (br, tr) := dropCommon bs ts
    if br.contains ['.', '.'] then ("", true)
    else
      (String.mk (List.intercalate ['/'] (br.map (fun _ => ['.', '.']) ++ tr)), false)

end filepath

/-! ## The remote store and the `pkg/sftp` client -/

/-- Go `error` values, identified by their message. -/
abbrev GoError := String

/-- A resolved remote path: the names from the top of the store down to the entry. -/
abbrev Key := List String

/-- What the store holds at a key. -/
inductive Node where
  | file (data : List UInt8) (modTime : Nat)
  | dir (listable : Bool) (modTime : Nat)
deriving DecidableEq, Repr

/-- The remote store: a finite map from resolved paths to nodes, in the order in which the
server lists them. -/
abbrev Store := List (Key × Node)

/-- The value of `os.FileInfo` the client returns. -/
structure FileInfo where
  Name : String
  Size : Int
  ModTime : Nat
  IsDir : Bool
deriving DecidableEq, Repr

/-- The requests a client sends, with the path it was given. -/
inductive Request where
  | stat (p : String)
  | lstat (p : String)
  | remove (p : String)
  | removeDirectory (p : String)
  | readDir (p : String)
  | mkdirAll (p : String)
  | openFile (p : String)
  | create (p : String)
  | write (p : String) (n : Nat)
  | close (p : String)
deriving DecidableEq, Repr

/-- A connected `*lib_sftp.Client`: the store it talks to, the server's clock, and every
request issued so far with whether it succeeded. -/
structure Client where
  store : Store
  now : Nat
  log : List (Request × Bool)
deriving DecidableEq, Repr

/-- How the server resolves a path: lexically, from the top of the store. -/
def resolve (p : String) : Key :=
  (path.cleanSegs true (path.splitSlash p.data)).map String.mk

namespace Store

/-- The node at a key, if any. -/
def get (s : Store) (k : Key) : Option Node := s.lookup k

/-- Whether `k` names an immediate child of `d`. -/
def isChild (d k : Key) : Bool := k.length = d.length + 1 && d.isPrefixOf k

/-- The entries immediately below `d`, in listing order. -/
def children (s : Store) (d : Key) : Store := s.filter (fun e => isChild d e.1)

/-- Drop the entry at `k`. -/
def erase (s : Store) (k : Key) : Store := s.filter (fun e => e.1 ≠ k)

/-- Set the node at `k`, in place when the key is present and at the end otherwise. -/
def set (s : Store) (k : Key) (n : Node) : Store :=
  if (s.lookup k).isSome then s.map (fun e => if e.1 = k then (k, n) else e) else s ++ [(k, n)]

end Store

/-- The last name of a key (`/` for the top). -/
def baseName (k : Key) : String := k.getLastD "/"

/-- The metadata of a node. -/
def infoOf (k : Key) : Node → FileInfo
  | .file data t => { Name := baseName k, Size := data.length, ModTime := t, IsDir := false }
  | .dir _ t => { Name := baseName k, Size := 0, ModTime := t, IsDir := true }

namespace Client

/-- Append one request and its outcome to the log. -/
def record (c : Client) (r : Request) (ok : Bool) : Client := { c with log := c.log ++ [(r, ok)] }

/-- `client.Stat`. -/
def Stat (c : Client) (p : String) : Except GoError FileInfo × Client :=
  match c.store.get (resolve p) with
  | some n => (.ok (infoOf (resolve p) n), c.record (.stat p) true)
  | none => (.error "file does not exist", c.record (.stat p) false)

/-- `client.Lstat`; the store has no links, so it differs from `Stat` in the request only. -/
def Lstat (c : Client) (p : String) : Except GoError FileInfo × Client :=
  match c.store.get (resolve p) with
  | some n => (.ok (infoOf (resolve p) n), c.record (.lstat p) true)
  | none => (.error "file does not exist", c.record (.lstat p) false)

/-- The effect of removing a directory: it must exist, be a directory and have no child. -/
def rmdirStore (s : Store) (k : Key) : Option Store :=
  match s.get k with
  | some (.dir _ _) => if s.children k = [] then some (s.erase k) else none
  | _ => none

/-- `client.RemoveDirectory`. -/
def RemoveDirectory (c : Client) (p : String) : Option GoError × Client :=
  match rmdirStore c.store (resolve p) with
  | some s => (none, { c with store := s }.record (.removeDirectory p) true)
  | none => (some "failure", c.record (.removeDirectory p) false)

/-- `client.Remove`: removes a file, and falls back to removing a directory. -/
def Remove (c : Client) (p : String) : Option GoError × Client :=
  match c.store.get (resolve p) with
  | some (.file _ _) =>
    (none, { c with store := c.store.erase (resolve p) }.record (.remove p) true)
  | some (.dir _ _) =>
    match rmdirStore c.store (resolve p) with
    | some s => (none, { c with store := s }.record (.remove p) true)
    | none => (some "failure", c.record (.remove p) false)
  | none => (some "file does not exist", c.record (.remove p) false)

/-- `client.ReadDir`: the entries immediately below a listable directory, in listing order. -/
def ReadDir (c : Client) (p : String) : Except GoError (List FileInfo) × Client :=
  match c.store.get (resolve p) with
  | some (.dir true _) =>
    (.ok ((c.store.children (resolve p)).map (fun e => infoOf e.1 e.2)), c.record (.readDir p) true)
  | some (.dir false _) => (.error "permission denied", c.record (.readDir p) false)
  | some (.file _ _) => (.error "failure", c.record (.readDir p) false)
  | none => (.error "file does not exist", c.record (.readDir p) false)

/-- Create every missing directory along `pre ++ rest`, outermost first; fails at a file. -/
def mkdirAllStore (now : Nat) : Store → Key → List String → Option Store
  | s, pre, [] =>
    match s.get pre with
    | some (.dir _ _) => some s
    | some (.file _ _) => none
    | none => some (s ++ [(pre, .dir true now)])
  | s, pre, x :: rest =>
    match s.get pre with
    | some (.dir _ _) => mkdirAllStore now s (pre ++ [x]) rest
    | some (.file _ _) => none
    | none => mkdirAllStore now (s ++ [(pre, .dir true now)]) (pre ++ [x]) rest

/-- `client.MkdirAll`. -/
def MkdirAll (c : Client) (p : String) : Option GoError × Client :=
  match mkdirAllStore c.now c.store [] (resolve p) with
  | some s => (none, { c with store := s }.record (.mkdirAll p) true)
  | none => (some "not a directory", c.record (.mkdirAll p) false)

end Client

/-- An open remote file (`*lib_sftp.File`), named by the path it was opened with. -/
structure File where
  path : String
deriving DecidableEq, Repr

/-- A local byte stream (`io.ReadCloser`): the bytes it delivers, then either end of file or a
read error. -/
structure Reader where
  data : List UInt8
  err : Option GoError
deriving DecidableEq, Repr

namespace Client

/-- `client.Create`: open for writing, creating the file or truncating it.  The parent must be
a directory and the path must not name a directory. -/
def Create (c : Client) (p : String) : Except GoError File × Client :=
  match c.store.get (resolve p), c.store.get (resolve p).dropLast with
  | some (.dir _ _), _ => (.error "failure", c.record (.create p) false)
  | _, some (.dir _ _) =>
    if resolve p = [] then (.error "failure", c.record (.create p) false)
    else
      (.ok ⟨p⟩,
        { c with store := c.store.set (resolve p) (.file [] c.now) }.record (.create p) true)
  | _, _ => (.error "file does not exist", c.record (.create p) false)

/-- `client.OpenFile` with `O_RDWR`: the path must name an existing regular file. -/
def OpenFile (c : Client) (p : String) : Except GoError File × Client :=
  match c.store.get (resolve p) with
  | some (.file _ _) => (.ok ⟨p⟩, c.record (.openFile p) true)
  | some (.dir _ _) => (.error "failure", c.record (.openFile p) false)
  | none => (.error "file does not exist", c.record (.openFile p) false)

end Client

namespace File

/-- `file.ReadFrom`: append everything the reader delivers to the remote file, and report the
reader's error, if any. -/
def ReadFrom (f : File) (c : Client) (r : Reader) : Option GoError × Client :=
  match c.store.get (resolve f.path) with
  | some (.file old t) =>
    (r.err, { c with store := c.store.set (resolve f.path) (.file (old ++ r.data) t) }.record
      (.write f.path r.data.length) true)
  | _ => (some "failure", c.record (.write f.path r.data.length) false)

/-- `file.Close`. -/
def Close (f : File) (c : Client) : Client := c.record (.close f.path) true

/-- Everything a reader of the open file gets, from its start to end of file. -/
def readAll (f : File) (c : Client) : Except GoError (List UInt8) :=
  match c.store.get (resolve f.path) with
  | some (.file data _) => .ok data
  | _ => .error "failure"

end File

/-! ## The `kr/fs` walker behind `client.Walk` -/

/-- One entry of the walk: its path, its metadata when known, and the error met at it. -/
structure WalkItem where
  path : String
  info : Option FileInfo
  err : Option GoError
deriving DecidableEq, Repr

/-- The walker: the current entry, the entries still to visit (next one first), and whether the
current entry is to be descended into. -/
structure Walker where
  cur : WalkItem
  stack : List WalkItem
  descend : Bool
deriving DecidableEq, Repr

/-- `client.Walk`: a walker whose first entry is `root` itself. -/
def Client.Walk (c : Client) (root : String) : Walker × Client :=
  match c.Lstat root with
  | (.ok info, c1) => (⟨⟨"", none, none⟩, [⟨root, some info, none⟩], false⟩, c1)
  | (.error e, c1) => (⟨⟨"", none, none⟩, [⟨root, none, some e⟩], false⟩, c1)

namespace Walker

/-- The part of `Step` that lists the current entry when it is a directory to descend into. -/
def expand (w : Walker) (c : Client) : Walker × Client :=
  if w.descend && w.cur.err.isNone && (w.cur.info.map (·.IsDir)).getD false then
    match c.ReadDir w.cur.path with
    | (.error e, c1) =>
      let cur1 := { w.cur with err := some e }
      ({ w with cur := cur1, stack := cur1 :: w.stack }, c1)
    | (.ok list, c1) =>
      ({ w with stack :=
          list.map (fun i => ⟨path.Join w.cur.path i.Name, some i, none⟩) ++ w.stack }, c1)
  else (w, c)

/-- `walker.Step`: advance to the next entry; false when the walk is over. -/
def Step (w : Walker) (c : Client) : Bool × Walker × Client :=
  match w.expand c with
  | (w1, c1) =>
    match w1.stack with
    | [] => (false, w1, c1)
    | top :: rest => (true, { cur := top, stack := rest, descend := true }, c1)

/-- `walker.Path`. -/
def Path (w : Walker) : String := w.cur.path

/-- `walker.Stat`. -/
def Stat (w : Walker) : Option FileInfo := w.cur.info

/-- `walker.Err`. -/
def Err (w : Walker) : Option GoError := w.cur.err

end Walker

/-! ## The backend: `SFTP` and its methods -/

/-- The fields of `config.SFTPConfig` the backend reads. -/
structure SFTPConfig where
  Key : String
  Username : String
  Address : String
  Path : String
deriving DecidableEq, Repr

/-- The implementation of `RemoteFile`. -/
structure sftpFile where
  size : Int
  lastModified : Nat
  name : String
deriving DecidableEq, Repr

namespace sftpFile

/-- `file.Size`. -/
def Size (file : sftpFile) : Int := file.size

/-- `file.LastModified`. -/
def LastModified (file : sftpFile) : Nat := file.lastModified

/-- `file.Name`. -/
def Name (file : sftpFile) : String := file.name

end sftpFile

/-- How a Go call ends: with a value, with an error, or in a run-time panic. -/
inductive Outcome (α : Type) where
  | ok (v : α)
  | error (e : GoError)
  | panicked
deriving DecidableEq, Repr

/-- The backend: `client` is a nil pointer until `Connect` succeeds. -/
structure SFTP where
  client : Option Client
  Config : SFTPConfig
  dirCache : Option (List String)
deriving DecidableEq, Repr

/-- What `Connect` reaches outside the backend: the local file system, the key parser, the
dialer (whose error the code drops, keeping a nil connection) and the SFTP handshake. -/
structure Env where
  readFile : String → Except GoError (List UInt8)
  parsePrivateKey : List UInt8 → Except GoError (List UInt8)
  dial : String → String → List UInt8 → Option Client
  newClient : Client → Except GoError Client

/-- Turn a Go `error` result into an outcome. -/
def Outcome.ofError : Option GoError → Outcome Unit
  | none => .ok ()
  | some e => .error e

namespace SFTP

/-- `Connect`. -/
def Connect (env : Env) (sftp : SFTP) : Outcome Unit × SFTP :=
  match env.readFile sftp.Config.Key with
  | .error err => (.error err, sftp)
  | .ok f_sftp_key =>
    match env.parsePrivateKey f_sftp_key with
    | .error err => (.error err, sftp)
    | .ok sftp_key =>
      match env.dial (sftp.Config.Address ++ ":22") sftp.Config.Username sftp_key with
      | none => (.panicked, sftp)
      | some ssh_connection =>
        match env.newClient ssh_connection with
        | .error err => (.error err, sftp)
        | .ok sftp_connection =>
          (.ok (), { sftp with client := some sftp_connection, dirCache := some [] })

/-- `Kind`. -/
def Kind (_ : SFTP) : String := "SFTP"

/-- `StatFile`. -/
def StatFile (sftp : SFTP) (key : String) : Outcome sftpFile × SFTP :=
  let file_path := path.Join sftp.Config.Path key
  match sftp.client with
  | none => (.panicked, sftp)
  | some client =>
    match client.Stat file_path with
    | (.error err, c1) => (.error err, { sftp with client := some c1 })
    | (.ok stat, c1) =>
      (.ok { size := stat.Size, lastModified := stat.ModTime, name := stat.Name },
        { sftp with client := some c1 })

end SFTP

/-- The loop of `DeleteDirectory` over the listed entries: a directory is deleted at once by
`recurse`, whose result is dropped; the removal of a file is deferred. -/
def deleteLoop (recurse : String → Client → Option (Option GoError × Client))
    (dir_path : String) : List FileInfo → Client → List String → Option (Client × List String)
  | [], c, deferred => some (c, deferred)
  | file :: files, c, deferred =>
    if file.IsDir then
      match recurse (path.Join dir_path file.Name) c with
      | none => none
      | some (_, c1) => deleteLoop recurse dir_path files c1 deferred
    else deleteLoop recurse dir_path files c (path.Join dir_path file.Name :: deferred)

/-- Run the deferred `client.Remove` calls, last deferred first; their results are dropped. -/
def runDeferred : List String → Client → Client
  | [], c => c
  | p :: ps, c => runDeferred ps (c.Remove p).2

/-- The body of `DeleteDirectory` on a live session.  The removal of `dir_path` is deferred
first, so it runs last on every return.  `none` means the recursion budget ran out. -/
def deleteDirectory : Nat → String → Client → Option (Option GoError × Client)
  | 0, _, _ => none
  | fuel + 1, dir_path, c =>
    match c.ReadDir dir_path with
    | (.error err, c1) => some (some err, (c1.RemoveDirectory dir_path).2)
    | (.ok files, c1) =>
      match deleteLoop (deleteDirectory fuel) dir_path files c1 [] with
      | none => none
      | some (c2, deferred) =>
        some (none, ((runDeferred deferred c2).RemoveDirectory dir_path).2)

namespace SFTP

/-- `DeleteDirectory`. -/
def DeleteDirectory (fuel : Nat) (sftp : SFTP) (dir_path : String) :
    Option (Outcome Unit × SFTP) :=
  match sftp.client with
  | none => some (.panicked, sftp)
  | some client =>
    match deleteDirectory fuel dir_path client with
    | none => none
    | some (r, c1) => some (Outcome.ofError r, { sftp with client := some c1 })

/-- `DeleteFile`. -/
def DeleteFile (fuel : Nat) (sftp : SFTP) (key : String) : Option (Outcome Unit × SFTP) :=
  let file_path := path.Join sftp.Config.Path key
  match sftp.client with
  | none => some (.panicked, sftp)
  | some client =>
    match client.Stat file_path with
    | (.error err, c1) => some (.error err, { sftp with client := some c1 })
    | (.ok file_stat, c1) =>
      if file_stat.IsDir then DeleteDirectory fuel { sftp with client := some c1 } file_path
      else
        match c1.Remove file_path with
        | (r, c2) => some (Outcome.ofError r, { sftp with client := some c2 })

end SFTP

/-- The recursive branch of `Walk`: the `for walker.Step()` loop.  `none` means the step budget
ran out. -/
def walkRecursive {σ : Type} (process : σ → sftpFile → Option GoError × σ) (dir : String) :
    Nat → Walker → Client → σ → Option (Option GoError × Client × σ)
  | 0, _, _, _ => none
  | fuel + 1, walker, c, s =>
    match walker.Step c with
    | (false, _, c1) => some (none, c1, s)
    | (true, w1, c1) =>
      match w1.Err with
      | some err => some (some err, c1, s)
      | none =>
        match w1.Stat with
        | none => walkRecursive process dir fuel w1 c1 s
        | some entry =>
          match process s
              { size := entry.Size, lastModified := entry.ModTime,
                name := (filepath.Rel dir w1.Path).1 } with
          | (some err, s1) => some (some err, c1, s1)
          | (none, s1) => walkRecursive process dir fuel w1 c1 s1

/-- The flat branch of `Walk`: the loop over the listed entries. -/
def walkFlat {σ : Type} (process : σ → sftpFile → Option GoError × σ) :
    List FileInfo → σ → Option GoError × σ
  | [], s => (none, s)
  | entry :: entries, s =>
    match process s { size := entry.Size, lastModified := entry.ModTime, name := entry.Name } with
    | (some err, s1) => (some err, s1)
    | (none, s1) => walkFlat process entries s1

namespace SFTP

/-- `Walk`.  The visitor `process` is a closure: it has a state of its own, `σ`. -/
def Walk {σ : Type} (fuel : Nat) (sftp : SFTP) (remote_path : String) (recursive : Bool)
    (process : σ → sftpFile → Option GoError × σ) (s : σ) : Option (Outcome Unit × SFTP × σ) :=
  let dir := path.Join sftp.Config.Path remote_path
  match sftp.client with
  | none => some (.panicked, sftp, s)
  | some client =>
    if recursive then
      match client.Walk dir with
      | (walker, c1) =>
        match walkRecursive process dir fuel walker c1 s with
        | none => none
        | some (r, c2, s1) => some (Outcome.ofError r, { sftp with client := some c2 }, s1)
    else
      match client.ReadDir dir with
      | (.error err, c1) => some (.error err, { sftp with client := some c1 }, s)
      | (.ok entries, c1) =>
        match walkFlat process entries s with
        | (r, s1) => some (Outcome.ofError r, { sftp with client := some c1 }, s1)

/-- `GetFileReader`; the result of `MkdirAll` is dropped. -/
def GetFileReader (sftp : SFTP) (key : String) : Outcome File × SFTP :=
  let file_path := path.Join sftp.Config.Path key
  match sftp.client with
  | none => (.panicked, sftp)
  | some client =>
    match (client.MkdirAll (path.Dir file_path)).2.OpenFile file_path with
    | (.error err, c2) => (.error err, { sftp with client := some c2 })
    | (.ok f, c2) => (.ok f, { sftp with client := some c2 })

/-- `PutFile`; the result of `MkdirAll` is dropped, and the deferred `Close` runs on both
returns that follow a successful `Create`. -/
def PutFile (sftp : SFTP) (key : String) (local_file : Reader) : Outcome Unit × SFTP :=
  let file_path := path.Join sftp.Config.Path key
  match sftp.client with
  | none => (.panicked, sftp)
  | some client =>
    match (client.MkdirAll (path.Dir file_path)).2.Create file_path with
    | (.error err, c2) => (.error err, { sftp with client := some c2 })
    | (.ok remote_file, c2) =>
      match remote_file.ReadFrom c2 local_file with
      | (some err, c3) => (.error err, { sftp with client := some (remote_file.Close c3) })
      | (none, c3) => (.ok (), { sftp with client := some (remote_file.Close c3) })

end SFTP

/-- A visitor that, besides running `process`, notes every entry it is called with. -/
def noting {σ : Type} (process : σ → sftpFile → Option GoError × σ) :
    σ × List sftpFile → sftpFile → Option GoError × (σ × List sftpFile) :=
  fun s f => ((process s.1 f).1, ((process s.1 f).2, s.2 ++ [f]))

/-! ## Sample stores and backends -/

/-- The configuration used in the examples: the remote root is `/root`. -/
def sampleConfig : SFTPConfig :=
  { Key := "/home/u/.ssh/id_rsa", Username := "u", Address := "host", Path := "/root" }

/-- The tree `root/{a.txt, sub/b.txt}`, listed in that order. -/
def sampleStore : Store :=
  [([], .dir true 0), (["root"], .dir true 1), (["root", "a.txt"], .file [1, 2, 3] 2),
    (["root", "sub"], .dir true 3), (["root", "sub", "b.txt"], .file [4] 4)]

/-- A live session on `sampleStore`, with nothing logged yet. -/
def sampleClient : Client := { store := sampleStore, now := 9, log := [] }

/-- A connected backend on `sampleStore`. -/
def sampleSFTP : SFTP := { client := some sampleClient, Config := sampleConfig, dirCache := some [] }

/-- The tree `root/{a.txt, sub/b.txt, c.txt}` in which `sub` cannot be listed. -/
def lockedStore : Store :=
  [([], .dir true 0), (["root"], .dir true 1), (["root", "a.txt"], .file [1, 2, 3] 2),
    (["root", "sub"], .dir false 3), (["root", "sub", "b.txt"], .file [4] 4),
    (["root", "c.txt"], .file [5, 6] 5)]

/-- A live session on `lockedStore`. -/
def lockedClient : Client := { store := lockedStore, now := 9, log := [] }

/-- A backend that was never connected. -/
def freshSFTP : SFTP := { client := none, Config := sampleConfig, dirCache := none }

/-- An environment in which the key file cannot be read. -/
def noKeyEnv : Env :=
  { readFile := fun _ => .error "open: no such file or directory"
    parsePrivateKey := fun b => .ok b
    dial := fun _ _ _ => some sampleClient
    newClient := fun c => .ok c }

/-- A visitor without state that accepts every entry. -/
def acceptAll : Unit → sftpFile → Option GoError × Unit := fun _ _ => (none, ())

/-- A visitor that counts its calls and rejects the `n`-th with the error `e`. -/
def rejectNth (n : Nat) (e : GoError) : Nat → sftpFile → Option GoError × Nat :=
  fun k _ => (if k + 1 = n then some e else none, k + 1)

/-- The state a visitor reaches by accepting every entry of a list in turn, if it does. -/
def acceptsAll {σ : Type} (process : σ → sftpFile → Option GoError × σ) :
    σ → List sftpFile → Option σ
  | s, [] => some s
  | s, f :: fs =>
    match process s f with
    | (none, s1) => acceptsAll process s1 fs
    | (some _, _) => none

/-- The `RemoteFile` the flat walk builds from a listed entry. -/
def flatFile (entry : FileInfo) : sftpFile :=
  { size := entry.Size, lastModified := entry.ModTime, name := entry.Name }

/-! ## Plain names and well-formed stores -/

/-- A path element that cleaning keeps as it is: not empty, not `.`, not `..`, without slash. -/
def path.Plain (seg : List Char) : Prop :=
  seg ≠ [] ∧ seg ≠ ['.'] ∧ seg ≠ ['.', '.'] ∧ '/' ∉ seg

instance path.decidablePlain (seg : List Char) : Decidable (path.Plain seg) := by
  unfold path.Plain; exact inferInstance

/-- Whether a node is a directory. -/
def Node.isDir : Node → Bool
  | .dir _ _ => true
  | .file _ _ => false

/-- Whether the store holds a directory at `k`. -/
def Store.isDirAt (s : Store) (k : Key) : Bool :=
  match s.get k with
  | some n => n.isDir
  | none => false

/-- A well-formed store: no key occurs twice, every name is plain, and every entry but the
top one lies in a directory of the store. -/
def Store.WF (s : Store) : Prop :=
  (s.map Prod.fst).Nodup ∧ (∀ e ∈ s, ∀ x ∈ e.1, path.Plain x.data) ∧
    ∀ e ∈ s, e.1 ≠ [] → s.isDirAt e.1.dropLast = true

instance Store.decidableWF (s : Store) : Decidable s.WF := by
  unfold Store.WF; exact inferInstance

/-- Whether listing the node can succeed: false for a directory that refuses to be listed. -/
def Node.listable : Node → Bool
  | .dir l _ => l
  | .file _ _ => true

/-- Every directory at or below `d` can be listed. -/
def Store.Listable (s : Store) (d : Key) : Prop :=
  ∀ e ∈ s, d <+: e.1 → e.2.listable = true

instance Store.decidableListable (s : Store) (d : Key) : Decidable (s.Listable d) := by
  unfold Store.Listable; exact inferInstance

/-- What a request removes, by resolved key: a file (`Remove`) or a directory
(`RemoveDirectory`); other requests remove nothing. -/
inductive Removal where
  | file (k : Key)
  | dir (k : Key)
deriving DecidableEq, Repr

/-- The removal a logged request stands for. -/
def removalOf (r : Request × Bool) : Option Removal :=
  match r.1 with
  | .remove p => some (.file (resolve p))
  | .removeDirectory p => some (.dir (resolve p))
  | _ => none

/-- The removal that deletes a store entry. -/
def removalFor (e : Key × Node) : Removal :=
  match e.2 with
  | .file _ _ => .file e.1
  | .dir _ _ => .dir e.1

/-- The requests of a complete recursive deletion of `dir_path`, read off an unchanging store:
list the directory, delete each subdirectory in listing order, remove the files in reverse
listing order, remove the directory. -/
def plan : Nat → Store → String → List (Request × Bool)
  | 0, _, _ => []
  | fuel + 1, s, dir_path =>
    (.readDir dir_path, true) ::
      (((s.children (resolve dir_path)).filter (fun e => e.2.isDir)).flatMap
          (fun e => plan fuel s (path.Join dir_path (baseName e.1))) ++
        (((s.children (resolve dir_path)).filter (fun e => !e.2.isDir)).reverse.map
          (fun e => (Request.remove (path.Join dir_path (baseName e.1)), true)) ++
        [(.removeDirectory dir_path, true)]))

/-! ## A measure for the recursive walk -/

/-- The sum of `f` over a list. -/
def sumBy {α : Type} (f : α → Nat) : List α → Nat
  | [] => 0
  | a :: l => f a + sumBy f l

/-- The steps the walker spends on an entry of its own: two for a directory (it is visited,
then listed), one for a file. -/
def Store.weight (e : Key × Node) : Nat := if e.2.isDir then 2 else 1

/-- The steps the walker spends on everything at or below `k`. -/
def Store.cost (s : Store) (k : Key) : Nat :=
  sumBy Store.weight (s.filter (fun e => decide (k <+: e.1)))

/-- The steps still to spend on an entry that waits on the walker's stack. -/
def WalkItem.cost (s : Store) (it : WalkItem) : Nat :=
  if it.err.isSome then 1 else s.cost (resolve it.path)

/-- The steps still to spend by a walker: on what is below its current entry, if that is
still to be listed, and on its stack. -/
def Walker.potential (s : Store) (w : Walker) : Nat :=
  (if w.descend && w.cur.err.isNone && (w.cur.info.map (·.IsDir)).getD false
    then s.cost (resolve w.cur.path) - 1 else 0) + sumBy (WalkItem.cost s) w.stack

/-- An entry of the walk agrees with the store: unless it carries an error, its path resolves
to an entry of the store whose metadata it holds. -/
def WalkItem.OK (s : Store) (it : WalkItem) : Prop :=
  it.err = none → ∃ n, (resolve it.path, n) ∈ s ∧ it.info = some (infoOf (resolve it.path) n)
/-! ## Facts about the store -/

theorem Store.get_nil (k : Key) : Store.get [] k = none := rfl

theorem Store.get_cons (k k1 : Key) (n : Node) (s : Store) :
    Store.get ((k1, n) :: s) k = if k = k1 then some n else Store.get s k := by
  unfold Store.get
  by_cases h : k = k1
  · subst h; simp [List.lookup]
  · have : (k == k1) = false := by simpa using h
    simp [List.lookup, this, h]

theorem Store.get_filter_of_true (p : Key × Node → Bool) (k : Key) (s : Store)
    (hk : ∀ n, p (k, n) = true) : Store.get (s.filter p) k = Store.get s k := by
  induction s with
  | nil => rfl
  | cons e s ih =>
    obtain ⟨k1, n⟩ := e
    by_cases hp : p (k1, n) = true
    · rw [List.filter_cons_of_pos hp, Store.get_cons, Store.get_cons, ih]
    · rw [List.filter_cons_of_neg hp, Store.get_cons, ih]
      have : k ≠ k1 := by
        intro h; subst h; exact hp (hk n)
      simp [this]

theorem Store.get_filter_of_false (p : Key × Node → Bool) (k : Key) (s : Store)
    (hk : ∀ n, p (k, n) = false) : Store.get (s.filter p) k = none := by
  induction s with
  | nil => rfl
  | cons e s ih =>
    obtain ⟨k1, n⟩ := e
    by_cases hp : p (k1, n) = true
    · rw [List.filter_cons_of_pos hp, Store.get_cons, ih]
      have : k ≠ k1 := by
        intro h; subst h; rw [hk n] at hp; exact Bool.noConfusion hp
      simp [this]
    · rw [List.filter_cons_of_neg hp, ih]

theorem Store.get_erase_self (s : Store) (k : Key) : Store.get (s.erase k) k = none :=
  Store.get_filter_of_false _ k s (by simp)

theorem Store.get_erase_of_ne (s : Store) (k k1 : Key) (h : k1 ≠ k) :
    Store.get (s.erase k) k1 = Store.get s k1 :=
  Store.get_filter_of_true _ k1 s (by intro n; simpa using h)

/-! ## Deleting one key -/

/-- C6: when the path a key resolves to is absent from the store, `DeleteFile` returns the
error of its `Stat` call, issues no other request (the log grows by the failed `stat` only),
and leaves the store as it was. -/
theorem DeleteFile_missing (fuel : Nat) (sftp : SFTP) (c : Client) (key : String)
    (hc : sftp.client = some c)
    (hmiss : c.store.get (resolve (path.Join sftp.Config.Path key)) = none) :
    ∃ e, (c.Stat (path.Join sftp.Config.Path key)).1 = .error e ∧
      SFTP.DeleteFile fuel sftp key =
        some (.error e, { sftp with
          client := some ⟨c.store, c.now,
            c.log ++ [(.stat (path.Join sftp.Config.Path key), false)]⟩ }) := by
  refine ⟨"file does not exist", ?_, ?_⟩
  · simp [Client.Stat, hmiss]
  · simp [SFTP.DeleteFile, hc, Client.Stat, hmiss, Client.record]

/-- C7: when the path a key resolves to holds a regular file, `DeleteFile` succeeds, issues
the `stat` and then a single `remove` of that path and nothing else; afterwards the path is
absent, every other key holds what it held, and the other entries keep their order. -/
theorem DeleteFile_regular (fuel : Nat) (sftp : SFTP) (c : Client) (key : String)
    (data : List UInt8) (t : Nat) (hc : sftp.client = some c)
    (hfile : c.store.get (resolve (path.Join sftp.Config.Path key)) = some (.file data t)) :
    ∃ c1, SFTP.DeleteFile fuel sftp key = some (.ok (), { sftp with client := some c1 }) ∧
      c1.log = c.log ++ [(.stat (path.Join sftp.Config.Path key), true),
        (.remove (path.Join sftp.Config.Path key), true)] ∧
      c1.store = c.store.filter (fun e => e.1 ≠ resolve (path.Join sftp.Config.Path key)) ∧
      c1.store.get (resolve (path.Join sftp.Config.Path key)) = none ∧
      ∀ k, k ≠ resolve (path.Join sftp.Config.Path key) → c1.store.get k = c.store.get k := by
  refine ⟨{ c with
      store := c.store.erase (resolve (path.Join sftp.Config.Path key)),
      log := c.log ++ [(.stat (path.Join sftp.Config.Path key), true),
        (.remove (path.Join sftp.Config.Path key), true)] }, ?_, rfl, rfl, ?_, ?_⟩
  · simp [SFTP.DeleteFile, hc, Client.Stat, hfile, Client.record, infoOf, Client.Remove,
      Outcome.ofError]
  · exact Store.get_erase_self _ _
  · intro k hk
    exact Store.get_erase_of_ne _ _ _ hk

/-! ## The flat walk -/

theorem walkFlat_accept {σ : Type} (process : σ → sftpFile → Option GoError × σ)
    (hv : ∀ s f, (process s f).1 = none) (es : List FileInfo) :
    ∀ (s : σ) (acc : List sftpFile),
      ∃ s1, walkFlat (noting process) es (s, acc) = (none, (s1, acc ++ es.map flatFile)) := by
  induction es with
  | nil => intro s acc; exact ⟨s, by simp [walkFlat]⟩
  | cons e es ih =>
    intro s acc
    obtain ⟨s1, h1⟩ := ih (process s (flatFile e)).2 (acc ++ [flatFile e])
    refine ⟨s1, ?_⟩
    have hn : (noting process (s, acc) (flatFile e)) =
        (none, ((process s (flatFile e)).2, acc ++ [flatFile e])) := by
      simp [noting, hv]
    unfold walkFlat
    unfold flatFile at hn
    rw [hn]
    simpa [flatFile] using h1

theorem walkFlat_stop {σ : Type} (process : σ → sftpFile → Option GoError × σ) (e : GoError)
    (es : List FileInfo) :
    ∀ (n : Nat) (s s1 : σ) (acc : List sftpFile), 0 < n → n ≤ es.length →
      acceptsAll process s ((es.map flatFile).take (n - 1)) = some s1 →
      (∀ f, (es.map flatFile).get? (n - 1) = some f → (process s1 f).1 = some e) →
      ∃ s2, walkFlat (noting process) es (s, acc) =
        (some e, (s2, acc ++ (es.map flatFile).take n)) := by
  induction es with
  | nil => intro n s s1 acc h0 hn; simp at hn; omega
  | cons x es ih =>
    intro n s s1 acc h0 hn hacc hrej
    obtain ⟨m, rfl⟩ : ∃ m, n = m + 1 := ⟨n - 1, by omega⟩
    cases m with
    | zero =>
      simp [acceptsAll] at hacc
      subst hacc
      have h := hrej (flatFile x) (by simp)
      refine ⟨(process s (flatFile x)).2, ?_⟩
      have hn : (noting process (s, acc) (flatFile x)) =
          (some e, ((process s (flatFile x)).2, acc ++ [flatFile x])) := by
        simp [noting, h]
      unfold walkFlat
      unfold flatFile at hn
      rw [hn]
      simp [flatFile]
    | succ m =>
      simp only [List.map_cons, Nat.add_sub_cancel, List.take_succ_cons, acceptsAll] at hacc
      cases hp : process s (flatFile x) with
      | mk r s' =>
        rw [hp] at hacc
        cases r with
        | some _ => simp at hacc
        | none =>
          simp only at hacc
          obtain ⟨s2, h2⟩ := ih (m + 1) s' s1 (acc ++ [flatFile x]) (by omega)
            (by simpa using hn) (by simpa using hacc) (by simpa using hrej)
          refine ⟨s2, ?_⟩
          have hn : (noting process (s, acc) (flatFile x)) =
              (none, (s', acc ++ [flatFile x])) := by
            simp [noting, hp]
          unfold walkFlat
          unfold flatFile at hn
          rw [hn]
          simpa [flatFile] using h2

/-! ## The recursive walk -/

theorem walkRecursive_stop {σ : Type} (process : σ → sftpFile → Option GoError × σ)
    (e : GoError) (dir : String) :
    ∀ (fuel : Nat) (w : Walker) (c : Client) (acc0 : List sftpFile) (r0 : Option GoError)
      (c1 : Client) (L : List sftpFile),
      walkRecursive (noting acceptAll) dir fuel w c ((), acc0) = some (r0, c1, ((), L)) →
      ∃ fs, L = acc0 ++ fs ∧
        ∀ (n : Nat) (s s1 : σ) (acc : List sftpFile), 0 < n → n ≤ fs.length →
          acceptsAll process s (fs.take (n - 1)) = some s1 →
          (∀ f, fs.get? (n - 1) = some f → (process s1 f).1 = some e) →
          ∃ c2 s2, walkRecursive (noting process) dir fuel w c (s, acc) =
            some (some e, c2, (s2, acc ++ fs.take n)) := by
  intro fuel
  induction fuel with
  | zero => intro w c acc0 r0 c1 L h; simp [walkRecursive] at h
  | succ fuel ih =>
    intro w c acc0 r0 c1 L h
    unfold walkRecursive at h
    rcases hstep : w.Step c with ⟨b, w1, cA⟩
    rw [hstep] at h
    cases b with
    | false =>
      simp only [Option.some.injEq, Prod.mk.injEq] at h
      refine ⟨[], by simp [h.2.2], ?_⟩
      intro n s s1 acc h0 hn
      simp at hn; omega
    | true =>
      simp only at h
      cases herr : w1.Err with
      | some err =>
        rw [herr] at h
        simp only [Option.some.injEq, Prod.mk.injEq] at h
        refine ⟨[], by simp [h.2.2], ?_⟩
        intro n s s1 acc h0 hn
        simp at hn; omega
      | none =>
        rw [herr] at h
        simp only at h
        cases hstat : w1.Stat with
        | none =>
          rw [hstat] at h
          simp only at h
          obtain ⟨fs, hL, hfs⟩ := ih w1 cA acc0 r0 c1 L h
          refine ⟨fs, hL, ?_⟩
          intro n s s1 acc h0 hn hacc hrej
          obtain ⟨c2, s2, h2⟩ := hfs n s s1 acc h0 hn hacc hrej
          refine ⟨c2, s2, ?_⟩
          unfold walkRecursive
          rw [hstep]; simp only; rw [herr]; simp only; rw [hstat]
          exact h2
        | some entry =>
          rw [hstat] at h
          simp only [noting, acceptAll] at h
          generalize hf : (sftpFile.mk entry.Size entry.ModTime (filepath.Rel dir w1.Path).1) = f
            at h
          obtain ⟨fs, hL, hfs⟩ := ih w1 cA _ r0 c1 L h
          refine ⟨f :: fs, by simpa using hL, ?_⟩
          intro n s s1 acc h0 hn hacc hrej
          obtain ⟨m, rfl⟩ : ∃ m, n = m + 1 := ⟨n - 1, by omega⟩
          cases m with
          | zero =>
            simp [acceptsAll] at hacc
            subst hacc
            have hr := hrej f (by simp)
            refine ⟨cA, (process s f).2, ?_⟩
            unfold walkRecursive
            rw [hstep]; simp only; rw [herr]; simp only; rw [hstat]
            simp only [noting, hf, hr]
            simp
          | succ m =>
            simp only [Nat.add_sub_cancel, List.take_succ_cons, acceptsAll] at hacc
            cases hp : process s f with
            | mk r s' =>
              rw [hp] at hacc
              cases r with
              | some _ => simp at hacc
              | none =>
                simp only at hacc
                obtain ⟨c2, s2, h2⟩ := hfs (m + 1) s' s1 (acc ++ [f]) (by omega)
                  (by simpa using hn) (by simpa using hacc) (by simpa using hrej)
                refine ⟨c2, s2, ?_⟩
                unfold walkRecursive
                rw [hstep]; simp only; rw [herr]; simp only; rw [hstat]
                simp only [noting, hf, hp]
                simpa using h2

/-! ## `Walk` -/

/-- C8: when the directory lists and the visitor never fails, the flat walk calls the visitor
once per immediate child, in listing order, with the entry's own name, size and modification
time; it issues the one `readDir` of the directory and nothing else (so it never descends),
and returns success. -/
theorem Walk_flat_children {σ : Type} (fuel : Nat) (sftp : SFTP) (c : Client)
    (subPath : String) (process : σ → sftpFile → Option GoError × σ) (s : σ) (t : Nat)
    (hc : sftp.client = some c)
    (hdir : c.store.get (resolve (path.Join sftp.Config.Path subPath)) = some (.dir true t))
    (hv : ∀ s f, (process s f).1 = none) :
    ∃ s1, SFTP.Walk fuel sftp subPath false (noting process) (s, []) =
      some (.ok (),
        { sftp with client := some ⟨c.store, c.now,
            c.log ++ [(.readDir (path.Join sftp.Config.Path subPath), true)]⟩ },
        (s1, (c.store.children (resolve (path.Join sftp.Config.Path subPath))).map
          (fun x => ⟨(infoOf x.1 x.2).Size, (infoOf x.1 x.2).ModTime, baseName x.1⟩))) := by
  obtain ⟨s1, h1⟩ := walkFlat_accept process hv
    ((c.store.children (resolve (path.Join sftp.Config.Path subPath))).map
      (fun x => infoOf x.1 x.2)) s []
  refine ⟨s1, ?_⟩
  have hname : ∀ (k : Key) (n : Node), (infoOf k n).Name = baseName k := by
    intro k n; cases n <;> rfl
  simp only [SFTP.Walk, hc, Client.ReadDir, hdir, Bool.false_eq_true, if_false, h1,
    Outcome.ofError, Client.record]
  simp [flatFile, hname, Function.comp_def]

/-- Take any run of `Walk`, in either mode, and let `fs` be the entries it presents to a
visitor that accepts everything.  A visitor that accepts the first `n - 1` of them and
returns the error `e` on the `n`-th is called exactly on the first `n` entries of `fs`, and
`Walk` returns `e` within the same budget. -/
theorem Walk_stops_of_run {σ : Type} (fuel : Nat) (sftp sftp0 : SFTP)
    (remote_path : String) (recursive : Bool) (process : σ → sftpFile → Option GoError × σ)
    (e : GoError) (n : Nat) (s s1 : σ) (r0 : Outcome Unit) (fs : List sftpFile)
    (hrun : SFTP.Walk fuel sftp remote_path recursive (noting acceptAll) ((), []) =
      some (r0, sftp0, ((), fs)))
    (h0 : 0 < n) (hn : n ≤ fs.length)
    (hacc : acceptsAll process s (fs.take (n - 1)) = some s1)
    (hrej : (fs.get? (n - 1)).map (fun f => (process s1 f).1) = some (some e)) :
    ∃ sftp1 s2, SFTP.Walk fuel sftp remote_path recursive (noting process) (s, []) =
      some (.error e, sftp1, (s2, fs.take n)) := by
  have hrej1 : ∀ f, fs.get? (n - 1) = some f → (process s1 f).1 = some e := by
    intro f hf; rw [hf] at hrej; simpa using hrej
  unfold SFTP.Walk at hrun ⊢
  cases hcl : sftp.client with
  | none =>
    rw [hcl] at hrun
    simp only [Option.some.injEq, Prod.mk.injEq] at hrun
    rw [← hrun.2.2.2] at hn
    simp at hn; omega
  | some client =>
    rw [hcl] at hrun
    simp only at hrun ⊢
    cases recursive with
    | true =>
      simp only [if_true] at hrun ⊢
      rcases hw : client.Walk (path.Join sftp.Config.Path remote_path) with ⟨walker, cA⟩
      rw [hw] at hrun
      simp only at hrun ⊢
      cases hr : walkRecursive (noting acceptAll) (path.Join sftp.Config.Path remote_path)
          fuel walker cA ((), []) with
      | none => rw [hr] at hrun; simp at hrun
      | some res =>
        obtain ⟨ra, ca, u, L⟩ := res
        rw [hr] at hrun
        simp only [Option.some.injEq, Prod.mk.injEq] at hrun
        obtain ⟨fs1, hL, hfs⟩ := walkRecursive_stop process e _ fuel walker cA [] ra ca L hr
        have hfs1 : fs1 = fs := by rw [← hrun.2.2.2]; simpa using hL.symm
        subst hfs1
        obtain ⟨c2, s2, h2⟩ := hfs n s s1 [] h0 hn hacc hrej1
        refine ⟨{ sftp with client := some c2 }, s2, ?_⟩
        rw [h2]
        simp [Outcome.ofError]
    | false =>
      simp only [Bool.false_eq_true, if_false] at hrun ⊢
      rcases hl : client.ReadDir (path.Join sftp.Config.Path remote_path) with ⟨res, cA⟩
      rw [hl] at hrun
      cases res with
      | error err =>
        simp only [Option.some.injEq, Prod.mk.injEq] at hrun
        rw [← hrun.2.2.2] at hn
        simp at hn; omega
      | ok entries =>
        simp only at hrun ⊢
        obtain ⟨u, hu⟩ := walkFlat_accept acceptAll (fun _ _ => rfl) entries () []
        rw [hu] at hrun
        simp only [Option.some.injEq, Prod.mk.injEq, List.nil_append] at hrun
        have hfs1 : entries.map flatFile = fs := hrun.2.2.2
        subst hfs1
        obtain ⟨s2, h2⟩ := walkFlat_stop process e entries n s s1 [] h0
          (by simpa using hn) hacc hrej1
        refine ⟨{ sftp with client := some cA }, s2, ?_⟩
        rw [h2]
        simp [Outcome.ofError]

theorem walkRecursive_mono {σ : Type} (process : σ → sftpFile → Option GoError × σ)
    (dir : String) (k : Nat) :
    ∀ (fuel : Nat) (w : Walker) (c : Client) (s : σ) (r : Option GoError × Client × σ),
      walkRecursive process dir fuel w c s = some r →
      walkRecursive process dir (fuel + k) w c s = some r := by
  intro fuel
  induction fuel with
  | zero => intro w c s r h; simp [walkRecursive] at h
  | succ fuel ih =>
    intro w c s r h
    rw [Nat.add_right_comm]
    unfold walkRecursive at h ⊢
    rcases hstep : w.Step c with ⟨b, w1, cA⟩
    rw [hstep] at h
    cases b with
    | false => exact h
    | true =>
      simp only at h ⊢
      cases herr : w1.Err with
      | some err => rw [herr] at h; exact h
      | none =>
        rw [herr] at h
        simp only at h ⊢
        cases hstat : w1.Stat with
        | none => rw [hstat] at h; exact ih _ _ _ _ h
        | some entry =>
          rw [hstat] at h
          simp only at h ⊢
          rcases hp : process s ⟨entry.Size, entry.ModTime, (filepath.Rel dir w1.Path).1⟩
            with ⟨r1, s1⟩
          rw [hp] at h
          cases r1 with
          | some err => exact h
          | none => exact ih _ _ _ _ h

theorem Walk_mono {σ : Type} (fuel k : Nat) (sftp : SFTP) (remote_path : String)
    (recursive : Bool) (process : σ → sftpFile → Option GoError × σ) (s : σ)
    (r : Outcome Unit × SFTP × σ)
    (h : SFTP.Walk fuel sftp remote_path recursive process s = some r) :
    SFTP.Walk (fuel + k) sftp remote_path recursive process s = some r := by
  unfold SFTP.Walk at h ⊢
  cases hcl : sftp.client with
  | none => rw [hcl] at h; exact h
  | some client =>
    rw [hcl] at h
    simp only at h ⊢
    cases recursive with
    | false => exact h
    | true =>
      simp only [if_true] at h ⊢
      rcases hw : client.Walk (path.Join sftp.Config.Path remote_path) with ⟨walker, cA⟩
      rw [hw] at h
      simp only at h ⊢
      cases hr : walkRecursive process (path.Join sftp.Config.Path remote_path)
          fuel walker cA s with
      | none => rw [hr] at h; simp at h
      | some res =>
        rw [walkRecursive_mono process _ k fuel walker cA s res hr]
        rw [hr] at h
        exact h

/-- C2, as the code behaves: on the tree `root/{a.txt, sub/b.txt}` the recursive walk from
`root` returns success after calling the visitor on four entries, in this order: `.` (the
starting directory itself), `a.txt`, `sub` (the directory) and `sub/b.txt`; every name is
relative to the starting directory. -/
theorem Walk_recursive_sample (fuel : Nat) (hfuel : 5 ≤ fuel) :
    (SFTP.Walk fuel sampleSFTP "" true (noting acceptAll) ((), [])).map
        (fun r => (r.1, r.2.2.2)) =
      some (.ok (), [⟨0, 1, "."⟩, ⟨3, 2, "a.txt"⟩, ⟨0, 3, "sub"⟩, ⟨1, 4, "sub/b.txt"⟩]) := by
  obtain ⟨k, rfl⟩ : ∃ k, fuel = 5 + k := ⟨fuel - 5, by omega⟩
  cases h5 : SFTP.Walk 5 sampleSFTP "" true (noting acceptAll) ((), []) with
  | none => exact absurd h5 (by decide)
  | some r =>
    rw [Walk_mono 5 k _ _ _ _ _ r h5]
    have h : (SFTP.Walk 5 sampleSFTP "" true (noting acceptAll) ((), [])).map
        (fun r => (r.1, r.2.2.2)) =
      some (.ok (), [⟨0, 1, "."⟩, ⟨3, 2, "a.txt"⟩, ⟨0, 3, "sub"⟩, ⟨1, 4, "sub/b.txt"⟩]) := by
      decide
    rw [h5] at h
    exact h

/-- The walk of C2 at a budget of seven steps. -/
theorem Walk_recursive_sample_witness :
    5 ≤ 7 ∧ (SFTP.Walk 7 sampleSFTP "" true (noting acceptAll) ((), [])).map
        (fun r => (r.1, r.2.2.2)) =
      some (.ok (), [⟨0, 1, "."⟩, ⟨3, 2, "a.txt"⟩, ⟨0, 3, "sub"⟩, ⟨1, 4, "sub/b.txt"⟩]) :=
  ⟨by decide, Walk_recursive_sample 7 (by decide)⟩

/-- C2 as stated fails: on the tree `root/{a.txt, sub/b.txt}` the recursive walk does not
call the visitor on exactly two entries. -/
theorem Walk_recursive_sample_not_two :
    ¬ (SFTP.Walk 5 sampleSFTP "" true (noting acceptAll) ((), [])).map
        (fun r => r.2.2.2.length) = some 2 := by
  decide

/-! ## A failed `Connect` -/

/-- C5, as the code behaves: when the key file cannot be read, `Connect` returns the read
error and leaves the backend as it was, so a backend without a session still has none; each
of `StatFile`, `DeleteFile`, `Walk`, `GetFileReader` and `PutFile` then calls a method on the
nil session and ends in a run-time panic rather than returning an error. -/
theorem Connect_unreadable_key (env : Env) (sftp : SFTP) (e : GoError)
    (hnil : sftp.client = none) (hread : env.readFile sftp.Config.Key = .error e) :
    SFTP.Connect env sftp = (.error e, sftp) ∧
      (SFTP.Connect env sftp).2.client = none ∧
      (∀ key, SFTP.StatFile (SFTP.Connect env sftp).2 key = (.panicked, sftp)) ∧
      (∀ fuel key, SFTP.DeleteFile fuel (SFTP.Connect env sftp).2 key = some (.panicked, sftp)) ∧
      (∀ (σ : Type) fuel remote_path recursive (process : σ → sftpFile → Option GoError × σ) s,
        SFTP.Walk fuel (SFTP.Connect env sftp).2 remote_path recursive process s =
          some (.panicked, sftp, s)) ∧
      (∀ key, SFTP.GetFileReader (SFTP.Connect env sftp).2 key = (.panicked, sftp)) ∧
      (∀ key local_file,
        SFTP.PutFile (SFTP.Connect env sftp).2 key local_file = (.panicked, sftp)) := by
  have h : SFTP.Connect env sftp = (.error e, sftp) := by simp [SFTP.Connect, hread]
  rw [h]
  refine ⟨rfl, hnil, ?_, ?_, ?_, ?_, ?_⟩
  · intro key; simp [SFTP.StatFile, hnil]
  · intro fuel key; simp [SFTP.DeleteFile, hnil]
  · intro σ fuel remote_path recursive process s; simp [SFTP.Walk, hnil]
  · intro key; simp [SFTP.GetFileReader, hnil]
  · intro key local_file; simp [SFTP.PutFile, hnil]

/-- The failed connect of C5 on a fresh backend whose key file is missing. -/
theorem Connect_unreadable_key_witness :
    freshSFTP.client = none ∧
      noKeyEnv.readFile freshSFTP.Config.Key = .error "open: no such file or directory" ∧
      SFTP.Connect noKeyEnv freshSFTP = (.error "open: no such file or directory", freshSFTP) ∧
      SFTP.StatFile (SFTP.Connect noKeyEnv freshSFTP).2 "a.txt" = (.panicked, freshSFTP) :=
  ⟨rfl, rfl,
    (Connect_unreadable_key noKeyEnv freshSFTP "open: no such file or directory" rfl rfl).1,
    (Connect_unreadable_key noKeyEnv freshSFTP "open: no such file or directory" rfl rfl).2.2.1
      "a.txt"⟩

/-- C5 as stated fails: after `Connect` failed on an unreadable key file, `StatFile` does not
return an error. -/
theorem StatFile_after_failed_Connect_no_error :
    ¬ ∃ e, (SFTP.StatFile (SFTP.Connect noKeyEnv freshSFTP).2 "a.txt").1 = .error e := by
  rintro ⟨e, h⟩
  have hp : (SFTP.StatFile (SFTP.Connect noKeyEnv freshSFTP).2 "a.txt").1 = .panicked := rfl
  rw [hp] at h
  cases h

/-! ## `DeleteDirectory` when a nested listing fails -/

/-- C1 at a failing input: in `root/{a.txt, sub/b.txt, c.txt}` where `sub` cannot be listed,
`DeleteDirectory` of `/root` removes the files `c.txt` and `a.txt` and attempts to remove
`/root`, but returns success: the error of the recursive call on `sub` is dropped. -/
theorem DeleteDirectory_locked_sub :
    SFTP.DeleteDirectory 2 ⟨some lockedClient, sampleConfig, some []⟩ "/root" =
      some (.ok (), ⟨some
        { store := [([], .dir true 0), (["root"], .dir true 1), (["root", "sub"], .dir false 3),
            (["root", "sub", "b.txt"], .file [4] 4)]
          now := 9
          log := [(.readDir "/root", true), (.readDir "/root/sub", false),
            (.removeDirectory "/root/sub", false), (.remove "/root/c.txt", true),
            (.remove "/root/a.txt", true), (.removeDirectory "/root", false)] },
        sampleConfig, some []⟩) := by
  decide

/-! ## Instances of the theorems above -/

/-- C6 on the sample store, for a key that is absent. -/
theorem DeleteFile_missing_witness :
    sampleSFTP.client = some sampleClient ∧
      sampleClient.store.get (resolve (path.Join sampleSFTP.Config.Path "nope")) = none ∧
      ∃ e, (sampleClient.Stat (path.Join sampleSFTP.Config.Path "nope")).1 = .error e ∧
        SFTP.DeleteFile 3 sampleSFTP "nope" =
          some (.error e, { sampleSFTP with
            client := some ⟨sampleClient.store, sampleClient.now,
              sampleClient.log ++ [(.stat (path.Join sampleSFTP.Config.Path "nope"), false)]⟩ }) :=
  ⟨rfl, by decide, DeleteFile_missing 3 sampleSFTP sampleClient "nope" rfl (by decide)⟩

/-- C7 on the sample store, for the file `a.txt`: its sibling `sub` stays. -/
theorem DeleteFile_regular_witness :
    sampleSFTP.client = some sampleClient ∧
      sampleClient.store.get (resolve (path.Join sampleSFTP.Config.Path "a.txt")) =
        some (.file [1, 2, 3] 2) ∧
      ∃ c1, SFTP.DeleteFile 3 sampleSFTP "a.txt" =
          some (.ok (), { sampleSFTP with client := some c1 }) ∧
        c1.store.get ["root", "a.txt"] = none ∧
        c1.store.get ["root", "sub"] = sampleClient.store.get ["root", "sub"] := by
  refine ⟨rfl, by decide, ?_⟩
  obtain ⟨c1, h1, _, _, h4, h5⟩ :=
    DeleteFile_regular 3 sampleSFTP sampleClient "a.txt" [1, 2, 3] 2 rfl (by decide)
  exact ⟨c1, h1, h4, h5 _ (by decide)⟩

/-- C8 on the sample store: the flat walk of `root` visits `a.txt` and `sub`, not `b.txt`. -/
theorem Walk_flat_children_witness :
    sampleSFTP.client = some sampleClient ∧
      sampleClient.store.get (resolve (path.Join sampleSFTP.Config.Path "")) =
        some (.dir true 1) ∧
      (∀ (s : Unit) (f : sftpFile), (acceptAll s f).1 = none) ∧
      ∃ s1, SFTP.Walk 0 sampleSFTP "" false (noting acceptAll) ((), []) =
        some (.ok (),
          { sampleSFTP with client := some ⟨sampleStore, 9, [(.readDir "/root", true)]⟩ },
          (s1, [⟨3, 2, "a.txt"⟩, ⟨0, 3, "sub"⟩])) :=
  ⟨rfl, by decide, fun _ _ => rfl,
    Walk_flat_children 0 sampleSFTP sampleClient "" acceptAll () 1 rfl (by decide)
      (fun _ _ => rfl)⟩

/-! ## Writing and reading back -/

theorem Store.get_append (s t : Store) (k : Key) :
    Store.get (s ++ t) k = (match Store.get s k with
      | some n => some n
      | none => Store.get t k) := by
  induction s with
  | nil => simp [Store.get_nil]
  | cons e s ih =>
    obtain ⟨k1, n⟩ := e
    rw [List.cons_append, Store.get_cons, Store.get_cons]
    by_cases h : k = k1
    · simp [h]
    · simp [h, ih]

theorem Store.get_map_set (s : Store) (k : Key) (n : Node) (h : (Store.get s k).isSome) :
    Store.get (s.map (fun e => if e.1 = k then (k, n) else e)) k = some n := by
  induction s with
  | nil => simp [Store.get_nil] at h
  | cons e s ih =>
    obtain ⟨k1, n1⟩ := e
    rw [Store.get_cons] at h
    rw [List.map_cons]
    by_cases hk : k1 = k
    · simp [hk, Store.get_cons]
    · have hk1 : k ≠ k1 := fun h1 => hk h1.symm
      simp only [hk, if_false, Store.get_cons, hk1]
      simp only [hk1, if_false] at h
      exact ih h

theorem Store.get_set_self (s : Store) (k : Key) (n : Node) :
    Store.get (s.set k n) k = some n := by
  unfold Store.set
  by_cases h : (s.lookup k).isSome
  · rw [if_pos h]; exact Store.get_map_set s k n h
  · rw [if_neg h, Store.get_append]
    have : Store.get s k = none := by
      unfold Store.get
      cases hl : List.lookup k s with
      | none => rfl
      | some v => rw [hl] at h; exact absurd rfl h
    rw [this]
    show Store.get [(k, n)] k = some n
    rw [Store.get_cons, if_pos rfl]

theorem Client.mkdirAllStore_keeps (now : Nat) (k : Key) (n : Node) :
    ∀ (rest : List String) (s s1 : Store) (pre : Key), Store.get s k = some n →
      Client.mkdirAllStore now s pre rest = some s1 → Store.get s1 k = some n := by
  intro rest
  induction rest with
  | nil =>
    intro s s1 pre hk h
    unfold Client.mkdirAllStore at h
    split at h
    · cases h; exact hk
    · cases h
    · cases h; rw [Store.get_append, hk]
  | cons x rest ih =>
    intro s s1 pre hk h
    unfold Client.mkdirAllStore at h
    split at h
    · exact ih _ _ _ hk h
    · cases h
    · refine ih _ _ _ ?_ h
      rw [Store.get_append, hk]

theorem Client.MkdirAll_keeps (c : Client) (p : String) (k : Key) (n : Node)
    (hk : c.store.get k = some n) : (c.MkdirAll p).2.store.get k = some n := by
  unfold Client.MkdirAll
  split
  · next s hs => exact Client.mkdirAllStore_keeps c.now k n _ _ _ _ hk hs
  · exact hk

theorem Client.Create_ok (c c1 : Client) (p : String) (f : File)
    (h : c.Create p = (.ok f, c1)) :
    f = ⟨p⟩ ∧ c1.store = c.store.set (resolve p) (.file [] c.now) ∧ c1.now = c.now := by
  unfold Client.Create at h
  split at h
  · cases h
  · split at h
    · cases h
    · cases h; exact ⟨rfl, rfl, rfl⟩
  · cases h

theorem File.ReadFrom_file (c : Client) (p : String) (r : Reader) (old : List UInt8) (t : Nat)
    (h : c.store.get (resolve p) = some (.file old t)) :
    (File.ReadFrom ⟨p⟩ c r).1 = r.err ∧
      (File.ReadFrom ⟨p⟩ c r).2.store.get (resolve p) = some (.file (old ++ r.data) t) := by
  constructor
  · simp [File.ReadFrom, h]
  · simp only [File.ReadFrom, h, Client.record]
    exact Store.get_set_self _ _ _

theorem Client.OpenFile_file (c : Client) (p : String) (data : List UInt8) (t : Nat)
    (h : c.store.get (resolve p) = some (.file data t)) :
    c.OpenFile p = (.ok ⟨p⟩, c.record (.openFile p) true) := by
  simp [Client.OpenFile, h]

/-- C4: if `PutFile` of a key succeeds, then the `GetFileReader` of the same key that follows
succeeds, and the stream it returns delivers exactly the bytes the source stream delivered,
in order, whatever the store held at that key before. -/
theorem PutFile_GetFileReader (sftp sftp1 : SFTP) (key : String) (local_file : Reader)
    (hput : SFTP.PutFile sftp key local_file = (.ok (), sftp1)) :
    local_file.err = none ∧
      ∃ f c2, SFTP.GetFileReader sftp1 key = (.ok f, { sftp1 with client := some c2 }) ∧
        f.readAll c2 = .ok local_file.data := by
  unfold SFTP.PutFile at hput
  unfold SFTP.GetFileReader
  simp only at hput ⊢
  generalize hfp : path.Join sftp.Config.Path key = fp at hput
  cases hcl : sftp.client with
  | none => rw [hcl] at hput; cases hput
  | some client =>
    rw [hcl] at hput
    simp only at hput
    rcases hcr : (client.MkdirAll (path.Dir fp)).2.Create fp with ⟨res, cA⟩
    rw [hcr] at hput
    cases res with
    | error err => cases hput
    | ok remote_file =>
      simp only at hput
      obtain ⟨hf, hst, hnow⟩ := Client.Create_ok _ _ _ _ hcr
      subst hf
      have hget : cA.store.get (resolve fp) = some (.file [] cA.now) := by
        rw [hst, hnow]; exact Store.get_set_self _ _ _
      obtain ⟨hr1, hr2⟩ := File.ReadFrom_file cA fp local_file [] cA.now hget
      rcases hrf : File.ReadFrom ⟨fp⟩ cA local_file with ⟨r, cB⟩
      rw [hrf] at hput hr1 hr2
      simp only at hr1 hr2
      subst hr1
      cases herr : local_file.err with
      | some err => rw [herr] at hput; cases hput
      | none =>
        rw [herr] at hput
        simp only [Prod.mk.injEq, true_and] at hput
        subst hput
        refine ⟨rfl, ?_⟩
        have hB : (File.Close ⟨fp⟩ cB).store.get (resolve fp) =
            some (.file local_file.data cA.now) := by
          simpa [File.Close, Client.record] using hr2
        have hC := Client.MkdirAll_keeps _ (path.Dir fp) _ _ hB
        refine ⟨⟨fp⟩, ((File.Close ⟨fp⟩ cB).MkdirAll (path.Dir fp)).2.record (.openFile fp) true,
          ?_, ?_⟩
        · simp only [hfp]
          rw [Client.OpenFile_file _ fp _ _ hC]
        · simp [File.readAll, Client.record, hC]

/-- C4 on the sample store: writing two bytes to a new key below new directories and
reading them back. -/
theorem PutFile_GetFileReader_witness :
    SFTP.PutFile sampleSFTP "x/y/z.bin" ⟨[7, 8], none⟩ =
        (.ok (), (SFTP.PutFile sampleSFTP "x/y/z.bin" ⟨[7, 8], none⟩).2) ∧
      ∃ f c2, SFTP.GetFileReader (SFTP.PutFile sampleSFTP "x/y/z.bin" ⟨[7, 8], none⟩).2
          "x/y/z.bin" =
            (.ok f, { (SFTP.PutFile sampleSFTP "x/y/z.bin" ⟨[7, 8], none⟩).2 with
              client := some c2 }) ∧
        f.readAll c2 = .ok [7, 8] :=
  ⟨by decide,
    (PutFile_GetFileReader sampleSFTP _ "x/y/z.bin" ⟨[7, 8], none⟩
      (show SFTP.PutFile sampleSFTP "x/y/z.bin" ⟨[7, 8], none⟩ =
        (.ok (), (SFTP.PutFile sampleSFTP "x/y/z.bin" ⟨[7, 8], none⟩).2) by decide)).2⟩

/-! ## Facts about `path` -/

theorem path.splitSlash_ne_nil (p : List Char) : path.splitSlash p ≠ [] := by
  induction p with
  | nil => simp [path.splitSlash]
  | cons c cs ih =>
    unfold path.splitSlash
    by_cases h : c = '/'
    · simp [h]
    · rw [if_neg h]
      cases hs : path.splitSlash cs with
      | nil => simp
      | cons s ss => simp

theorem path.splitSlash_append_slash (a b : List Char) :
    path.splitSlash (a ++ '/' :: b) = path.splitSlash a ++ path.splitSlash b := by
  induction a with
  | nil => simp [path.splitSlash]
  | cons c cs ih =>
    rw [List.cons_append]
    by_cases h : c = '/'
    · subst h
      simp only [path.splitSlash, if_true, ih, List.cons_append]
    · simp only [path.splitSlash, if_neg h, ih]
      cases hs : path.splitSlash cs with
      | nil => exact absurd hs (path.splitSlash_ne_nil cs)
      | cons s ss => simp

theorem path.splitSlash_of_no_slash (s : List Char) (h : '/' ∉ s) : path.splitSlash s = [s] := by
  induction s with
  | nil => rfl
  | cons c cs ih =>
    have hc : c ≠ '/' := fun hc => h (by simp [hc])
    have hcs : '/' ∉ cs := fun hm => h (List.mem_cons_of_mem _ hm)
    simp [path.splitSlash, hc, ih hcs]

theorem path.no_slash_of_mem_splitSlash (p : List Char) :
    ∀ seg ∈ path.splitSlash p, '/' ∉ seg := by
  induction p with
  | nil => intro seg h; simp [path.splitSlash] at h; simp [h]
  | cons c cs ih =>
    intro seg h
    unfold path.splitSlash at h
    by_cases hc : c = '/'
    · rw [if_pos hc] at h
      rcases List.mem_cons.1 h with h1 | h1
      · simp [h1]
      · exact ih seg h1
    · rw [if_neg hc] at h
      cases hs : path.splitSlash cs with
      | nil => exact absurd hs (path.splitSlash_ne_nil cs)
      | cons s ss =>
        rw [hs] at h ih
        rcases List.mem_cons.1 h with h1 | h1
        · subst h1
          intro hm
          rcases List.mem_cons.1 hm with h2 | h2
          · exact hc h2.symm
          · exact ih s (List.mem_cons_self _ _) h2
        · exact ih seg (List.mem_cons_of_mem _ h1)

theorem path.intercalate_cons_cons (x y : List Char) (l : List (List Char)) :
    List.intercalate ['/'] (x :: y :: l) = x ++ '/' :: List.intercalate ['/'] (y :: l) := by
  simp [List.intercalate, List.intersperse]

theorem path.splitSlash_intercalate (segs : List (List Char)) (hne : segs ≠ [])
    (h : ∀ s ∈ segs, '/' ∉ s) : path.splitSlash (List.intercalate ['/'] segs) = segs := by
  induction segs with
  | nil => exact absurd rfl hne
  | cons x l ih =>
    cases l with
    | nil =>
      have : List.intercalate ['/'] [x] = x := by simp [List.intercalate, List.intersperse]
      rw [this]
      exact path.splitSlash_of_no_slash x (h x (List.mem_cons_self _ _))
    | cons y l =>
      rw [path.intercalate_cons_cons, path.splitSlash_append_slash,
        ih (by simp) (fun s hs => h s (List.mem_cons_of_mem _ hs)),
        path.splitSlash_of_no_slash x (h x (List.mem_cons_self _ _))]
      rfl

theorem path.cleanStep_plain (rooted : Bool) (st : List (List Char)) (seg : List Char)
    (h : path.Plain seg) : path.cleanStep rooted st seg = seg :: st := by
  obtain ⟨h1, h2, h3, _⟩ := h
  simp [path.cleanStep, h1, h2, h3]

theorem path.foldl_cleanStep_plain (rooted : Bool) (l : List (List Char)) :
    ∀ st, (∀ s ∈ l, path.Plain s) → l.foldl (path.cleanStep rooted) st = l.reverse ++ st := by
  induction l with
  | nil => intro st _; rfl
  | cons x l ih =>
    intro st h
    rw [List.foldl_cons, path.cleanStep_plain rooted st x (h x (List.mem_cons_self _ _)),
      ih _ (fun s hs => h s (List.mem_cons_of_mem _ hs))]
    simp

theorem path.cleanStep_rooted_plain (st : List (List Char)) (seg : List Char)
    (hst : ∀ s ∈ st, path.Plain s) (hseg : '/' ∉ seg) :
    ∀ s ∈ path.cleanStep true st seg, path.Plain s := by
  unfold path.cleanStep
  by_cases h1 : seg = []
  · rw [if_pos h1]; exact hst
  · rw [if_neg h1]
    by_cases h2 : seg = ['.']
    · rw [if_pos h2]; exact hst
    · rw [if_neg h2]
      by_cases h3 : seg = ['.', '.']
      · rw [if_pos h3]
        cases st with
        | nil => simp
        | cons top rest =>
          have htop : top ≠ ['.', '.'] := (hst top (List.mem_cons_self _ _)).2.2.1
          simp only [htop, if_false]
          exact fun s hs => hst s (List.mem_cons_of_mem _ hs)
      · rw [if_neg h3]
        intro s hs
        rcases List.mem_cons.1 hs with h | h
        · subst h; exact ⟨h1, h2, h3, hseg⟩
        · exact hst s h

theorem path.foldl_cleanStep_rooted_plain (l : List (List Char)) :
    ∀ st, (∀ s ∈ st, path.Plain s) → (∀ s ∈ l, '/' ∉ s) →
      ∀ s ∈ l.foldl (path.cleanStep true) st, path.Plain s := by
  induction l with
  | nil => intro st hst _; exact hst
  | cons x l ih =>
    intro st hst hl
    rw [List.foldl_cons]
    exact ih _ (path.cleanStep_rooted_plain st x hst (hl x (List.mem_cons_self _ _)))
      (fun s hs => hl s (List.mem_cons_of_mem _ hs))

theorem path.cleanSegs_rooted_plain (l : List (List Char)) (hl : ∀ s ∈ l, '/' ∉ s) :
    ∀ s ∈ path.cleanSegs true l, path.Plain s := by
  intro s hs
  unfold path.cleanSegs at hs
  exact path.foldl_cleanStep_rooted_plain l [] (by simp) hl s (List.mem_reverse.1 hs)

theorem path.foldl_cleanStep_no_dotdot (rooted : Bool) (l : List (List Char)) :
    ∀ st, ['.', '.'] ∉ l → (∀ s ∈ l, '/' ∉ s) →
      ∃ kept, l.foldl (path.cleanStep rooted) st = kept ++ st ∧ ∀ s ∈ kept, path.Plain s := by
  induction l with
  | nil => intro st _ _; exact ⟨[], rfl, by simp⟩
  | cons x l ih =>
    intro st hdd hl
    have hx : x ≠ ['.', '.'] := fun h => hdd (by simp [h])
    have hl1 : ['.', '.'] ∉ l := fun h => hdd (List.mem_cons_of_mem _ h)
    have hl2 : ∀ s ∈ l, '/' ∉ s := fun s hs => hl s (List.mem_cons_of_mem _ hs)
    rw [List.foldl_cons]
    by_cases h1 : x = []
    · have : path.cleanStep rooted st x = st := by simp [path.cleanStep, h1]
      rw [this]; exact ih st hl1 hl2
    · by_cases h2 : x = ['.']
      · have : path.cleanStep rooted st x = st := by simp [path.cleanStep, h2]
        rw [this]; exact ih st hl1 hl2
      · have hp : path.Plain x := ⟨h1, h2, hx, hl x (List.mem_cons_self _ _)⟩
        rw [path.cleanStep_plain rooted st x hp]
        obtain ⟨kept, hk, hkp⟩ := ih (x :: st) hl1 hl2
        refine ⟨kept ++ [x], by simpa using hk, ?_⟩
        intro s hs
        rcases List.mem_append.1 hs with h | h
        · exact hkp s h
        · simp at h; subst h; exact hp

theorem path.cleanSegs_plain (rooted : Bool) (segs : List (List Char))
    (h : ∀ s ∈ segs, path.Plain s) : path.cleanSegs rooted segs = segs := by
  unfold path.cleanSegs
  rw [path.foldl_cleanStep_plain rooted segs [] h]
  simp

theorem path.splitSlash_rendered (segs : List (List Char)) (h : ∀ s ∈ segs, path.Plain s) :
    path.cleanSegs true (path.splitSlash ('/' :: List.intercalate ['/'] segs)) = segs := by
  have hsplit : path.splitSlash ('/' :: List.intercalate ['/'] segs) =
      [] :: path.splitSlash (List.intercalate ['/'] segs) := by
    simp [path.splitSlash]
  rw [hsplit]
  cases segs with
  | nil => rfl
  | cons x l =>
    rw [path.splitSlash_intercalate (x :: l) (by simp) (fun s hs => (h s hs).2.2.2)]
    have : path.cleanSegs true ([] :: x :: l) = path.cleanSegs true (x :: l) := by
      simp [path.cleanSegs, path.cleanStep]
    rw [this]
    exact path.cleanSegs_plain true _ h

theorem path.cleanChars_rendered (segs : List (List Char)) (h : ∀ s ∈ segs, path.Plain s) :
    path.cleanChars ('/' :: List.intercalate ['/'] segs) = '/' :: List.intercalate ['/'] segs := by
  unfold path.cleanChars
  rw [if_neg (by simp)]
  have hr : path.isRooted ('/' :: List.intercalate ['/'] segs) = true := rfl
  rw [hr, path.splitSlash_rendered segs h]
  rfl

theorem path.isRooted_append (a b : List Char) (h : path.isRooted a = true) :
    path.isRooted (a ++ b) = true := by
  cases a with
  | nil => simp [path.isRooted] at h
  | cons c cs =>
    by_cases hc : c = '/'
    · subst hc; rfl
    · have : path.isRooted (c :: cs) = false := by
        unfold path.isRooted
        split
        · next heq => injection heq with h1 _; exact absurd h1 hc
        · rfl
      rw [this] at h; cases h

theorem path.ne_nil_of_isRooted (a : List Char) (h : path.isRooted a = true) : a ≠ [] := by
  intro ha; subst ha; simp [path.isRooted] at h

/-- The shape of `path.Join root key` for a rooted `root` and a `key` without `..` element. -/
theorem path.Join_rooted (root key : String) (hroot : path.isRooted root.data = true)
    (hkey : ['.', '.'] ∉ path.splitSlash key.data) :
    ∃ rest : List (List Char),
      (path.Clean root).data =
          '/' :: List.intercalate ['/'] (path.cleanSegs true (path.splitSlash root.data)) ∧
        (path.Join root key).data = '/' :: List.intercalate ['/']
          (path.cleanSegs true (path.splitSlash root.data) ++ rest) ∧
        ∀ s ∈ path.cleanSegs true (path.splitSlash root.data) ++ rest, path.Plain s := by
  have hne := path.ne_nil_of_isRooted _ hroot
  obtain ⟨kept, hk, hkp⟩ := path.foldl_cleanStep_no_dotdot true (path.splitSlash key.data)
    ((path.splitSlash root.data).foldl (path.cleanStep true) []) hkey
    (path.no_slash_of_mem_splitSlash _)
  have hrootp := path.cleanSegs_rooted_plain (path.splitSlash root.data)
    (path.no_slash_of_mem_splitSlash _)
  refine ⟨kept.reverse, ?_, ?_, ?_⟩
  · simp [path.Clean, path.cleanChars, hne, hroot, path.render]
  · have hj : path.Join root key = path.Clean (String.mk (root.data ++ '/' :: key.data)) := by
      simp [path.Join, hne]
    rw [hj]
    have hr2 : path.isRooted (root.data ++ '/' :: key.data) = true :=
      path.isRooted_append _ _ hroot
    simp only [path.Clean, path.cleanChars, hr2, path.render, if_true]
    rw [if_neg (by simp [hne]), path.splitSlash_append_slash]
    simp only [path.cleanSegs, List.foldl_append, hk, List.reverse_append]
  · intro s hs
    rcases List.mem_append.1 hs with h | h
    · exact hrootp s h
    · exact hkp s (List.mem_reverse.1 h)

theorem path.getLast_intercalate (segs : List (List Char)) (hne : segs ≠ [])
    (h : ∀ s ∈ segs, path.Plain s) :
    ∃ c, (List.intercalate ['/'] segs).getLast? = some c ∧ c ≠ '/' := by
  induction segs with
  | nil => exact absurd rfl hne
  | cons x l ih =>
    cases l with
    | nil =>
      have hx := h x (List.mem_cons_self _ _)
      have : List.intercalate ['/'] [x] = x := by simp [List.intercalate, List.intersperse]
      rw [this]
      refine ⟨x.getLast hx.1, List.getLast?_eq_getLast _ hx.1, ?_⟩
      intro hc
      exact hx.2.2.2 (hc ▸ List.getLast_mem hx.1)
    | cons y l =>
      obtain ⟨c, hc, hc1⟩ := ih (by simp) (fun s hs => h s (List.mem_cons_of_mem _ hs))
      refine ⟨c, ?_, hc1⟩
      rw [path.intercalate_cons_cons, List.getLast?_append, List.getLast?_cons, hc]
      rfl

/-- C10, as the code behaves: for a rooted `root` and a `key` without `..` element, the path
`path.Join root key` that `StatFile`, `DeleteFile`, `GetFileReader` and `PutFile` operate on
is `/` followed by plain elements (none empty, `.` or `..`) joined by single slashes; these
are the elements of the cleaned root followed by further ones, so the path is the cleaned
root or lies below it; cleaning it again changes nothing; and it ends in a slash only when
it is `/` itself. -/
theorem Join_under_root (root key : String) (hroot : path.isRooted root.data = true)
    (hkey : ['.', '.'] ∉ path.splitSlash key.data) :
    ∃ rootSegs rest : List (List Char),
      (path.Clean root).data = '/' :: List.intercalate ['/'] rootSegs ∧
        (path.Join root key).data = '/' :: List.intercalate ['/'] (rootSegs ++ rest) ∧
        (∀ s ∈ rootSegs ++ rest, path.Plain s) ∧
        (rest = [] → path.Join root key = path.Clean root) ∧
        path.Clean (path.Join root key) = path.Join root key ∧
        ((path.Join root key).data.getLast? = some '/' → path.Join root key = "/") := by
  obtain ⟨rest, h1, h2, h3⟩ := path.Join_rooted root key hroot hkey
  refine ⟨_, rest, h1, h2, h3, ?_, ?_, ?_⟩
  · intro hr
    apply String.ext
    rw [h1, h2, hr, List.append_nil]
  · apply String.ext
    show path.cleanChars (path.Join root key).data = _
    rw [h2]
    exact path.cleanChars_rendered _ h3
  · intro hlast
    apply String.ext
    rw [h2] at hlast ⊢
    by_cases hs : path.cleanSegs true (path.splitSlash root.data) ++ rest = []
    · rw [hs]; rfl
    · obtain ⟨c, hc, hc1⟩ := path.getLast_intercalate _ hs h3
      rw [List.getLast?_cons, hc] at hlast
      simp at hlast
      exact absurd hlast hc1

/-- C10 for the root `/root` and a key with a `.` element and a doubled slash. -/
theorem Join_under_root_witness :
    path.isRooted "/root".data = true ∧ ['.', '.'] ∉ path.splitSlash "x/./y//z.bin".data ∧
      ∃ rootSegs rest : List (List Char),
        (path.Clean "/root").data = '/' :: List.intercalate ['/'] rootSegs ∧
          (path.Join "/root" "x/./y//z.bin").data =
            '/' :: List.intercalate ['/'] (rootSegs ++ rest) ∧
          (∀ s ∈ rootSegs ++ rest, path.Plain s) ∧
          (rest = [] → path.Join "/root" "x/./y//z.bin" = path.Clean "/root") ∧
          path.Clean (path.Join "/root" "x/./y//z.bin") = path.Join "/root" "x/./y//z.bin" ∧
          ((path.Join "/root" "x/./y//z.bin").data.getLast? = some '/' →
            path.Join "/root" "x/./y//z.bin" = "/") :=
  ⟨by decide, by decide, Join_under_root "/root" "x/./y//z.bin" (by decide) (by decide)⟩

/-- C10 as stated fails: for the root `/` and the empty key, both within the claim's
conditions, the resolved path ends in a slash. -/
theorem Join_top_trailing_slash :
    path.isRooted "/".data = true ∧ ['.', '.'] ∉ path.splitSlash "".data ∧
      (path.Join "/" "").data.getLast? = some '/' := by
  decide

/-! ## Resolving a joined path -/

theorem path.isRooted_append_of_ne_nil (a b : List Char) (h : a ≠ []) :
    path.isRooted (a ++ b) = path.isRooted a := by
  cases a with
  | nil => exact absurd rfl h
  | cons c cs =>
    by_cases hc : c = '/'
    · subst hc; rfl
    · have h1 : ∀ l : List Char, path.isRooted (c :: l) = false := by
        intro l
        unfold path.isRooted
        split
        · next heq => injection heq with h1 _; exact absurd h1 hc
        · rfl
      rw [List.cons_append, h1, h1]

theorem path.mem_foldl_cleanStep (rooted : Bool) (l : List (List Char)) :
    ∀ st, ∀ s ∈ l.foldl (path.cleanStep rooted) st, s ∈ st ∨ s ∈ l := by
  induction l with
  | nil => intro st s hs; exact Or.inl hs
  | cons x l ih =>
    intro st s hs
    rw [List.foldl_cons] at hs
    rcases ih _ s hs with h | h
    · have hstep : s ∈ st ∨ s = x := by
        unfold path.cleanStep at h
        split at h
        · exact Or.inl h
        · split at h
          · exact Or.inl h
          · split at h
            · split at h
              · split at h
                · simp at h
                · simp at h; exact Or.inr h
              · split at h
                · rcases List.mem_cons.1 h with h1 | h1
                  · exact Or.inr h1
                  · exact Or.inl h1
                · exact Or.inl (List.mem_cons_of_mem _ h)
            · rcases List.mem_cons.1 h with h1 | h1
              · exact Or.inr h1
              · exact Or.inl h1
      rcases hstep with h1 | h1
      · exact Or.inl h1
      · exact Or.inr (by simp [h1])
    · exact Or.inr (List.mem_cons_of_mem _ h)

theorem path.no_slash_of_mem_cleanSegs (rooted : Bool) (l : List (List Char))
    (hl : ∀ s ∈ l, '/' ∉ s) : ∀ s ∈ path.cleanSegs rooted l, '/' ∉ s := by
  intro s hs
  unfold path.cleanSegs at hs
  rcases path.mem_foldl_cleanStep rooted l [] s (List.mem_reverse.1 hs) with h | h
  · simp at h
  · exact hl s h

theorem path.foldl_cleanStep_unrooted (l : List (List Char)) :
    ∀ (stT : List (List Char)) (k : Nat), (∀ s ∈ stT, path.Plain s) → (∀ s ∈ l, '/' ∉ s) →
      ∃ k1, l.foldl (path.cleanStep false) (stT ++ List.replicate k ['.', '.']) =
        l.foldl (path.cleanStep true) stT ++ List.replicate k1 ['.', '.'] := by
  induction l with
  | nil => intro stT k _ _; exact ⟨k, rfl⟩
  | cons x l ih =>
    intro stT k hst hl
    have hl2 : ∀ s ∈ l, '/' ∉ s := fun s hs => hl s (List.mem_cons_of_mem _ hs)
    have hx : '/' ∉ x := hl x (List.mem_cons_self _ _)
    rw [List.foldl_cons, List.foldl_cons]
    by_cases h1 : x = []
    · simp only [path.cleanStep, h1, if_true]
      exact ih stT k hst hl2
    · by_cases h2 : x = ['.']
      · simp only [path.cleanStep, h2, if_true]
        simp only [List.cons_ne_nil, if_false]
        exact ih stT k hst hl2
      · by_cases h3 : x = ['.', '.']
        · subst h3
          cases stT with
          | nil =>
            cases k with
            | zero =>
              have e1 : path.cleanStep false ([] ++ List.replicate 0 ['.', '.']) ['.', '.'] =
                  [] ++ List.replicate 1 ['.', '.'] := by
                simp [path.cleanStep]
              have e2 : path.cleanStep true [] ['.', '.'] = [] := by simp [path.cleanStep]
              rw [e1, e2]
              exact ih [] 1 hst hl2
            | succ k =>
              have e1 : path.cleanStep false ([] ++ List.replicate (k + 1) ['.', '.'])
                  ['.', '.'] = [] ++ List.replicate (k + 2) ['.', '.'] := by
                simp [path.cleanStep, List.replicate_succ]
              have e2 : path.cleanStep true [] ['.', '.'] = [] := by simp [path.cleanStep]
              rw [e1, e2]
              exact ih [] (k + 2) hst hl2
          | cons top rest =>
            have htop : top ≠ ['.', '.'] := (hst top (List.mem_cons_self _ _)).2.2.1
            have e1 : path.cleanStep false (top :: rest ++ List.replicate k ['.', '.'])
                ['.', '.'] = rest ++ List.replicate k ['.', '.'] := by
              simp [path.cleanStep, htop]
            have e2 : path.cleanStep true (top :: rest) ['.', '.'] = rest := by
              simp [path.cleanStep, htop]
            rw [e1, e2]
            exact ih rest k (fun s hs => hst s (List.mem_cons_of_mem _ hs)) hl2
        · have hp : path.Plain x := ⟨h1, h2, h3, hx⟩
          rw [path.cleanStep_plain false _ x hp, path.cleanStep_plain true _ x hp]
          have := ih (x :: stT) k (by
            intro s hs
            rcases List.mem_cons.1 hs with h | h
            · subst h; exact hp
            · exact hst s h) hl2
          simpa using this

theorem path.foldl_cleanStep_dotdots (k : Nat) :
    (List.replicate k ['.', '.']).foldl (path.cleanStep true) [] = [] := by
  induction k with
  | zero => rfl
  | succ k ih =>
    rw [List.replicate_succ, List.foldl_cons]
    have : path.cleanStep true [] ['.', '.'] = [] := by simp [path.cleanStep]
    rw [this, ih]

theorem path.cleanSegs_cleanSegs_append (rooted : Bool) (l extra : List (List Char))
    (hl : ∀ s ∈ l, '/' ∉ s) (hextra : ∀ s ∈ extra, path.Plain s) :
    path.cleanSegs true (path.cleanSegs rooted l ++ extra) = path.cleanSegs true l ++ extra := by
  have hT := path.foldl_cleanStep_rooted_plain l [] (by simp) hl
  cases rooted with
  | true =>
    apply path.cleanSegs_plain
    intro s hs
    rcases List.mem_append.1 hs with h | h
    · exact path.cleanSegs_rooted_plain l hl s h
    · exact hextra s h
  | false =>
    obtain ⟨k1, hk⟩ := path.foldl_cleanStep_unrooted l [] 0 (by simp) hl
    simp only [List.replicate_zero, List.append_nil] at hk
    unfold path.cleanSegs
    rw [hk, List.reverse_append, List.reverse_replicate, List.foldl_append, List.foldl_append,
      path.foldl_cleanStep_dotdots,
      path.foldl_cleanStep_plain true _ [] (by
        intro s hs; exact hT s (List.mem_reverse.1 hs)),
      path.foldl_cleanStep_plain true extra _ hextra]
    simp

theorem path.cleanSegs_append_plain (rooted : Bool) (l : List (List Char)) (name : List Char)
    (h : path.Plain name) :
    path.cleanSegs rooted (l ++ [name]) = path.cleanSegs rooted l ++ [name] := by
  unfold path.cleanSegs
  rw [List.foldl_append, List.foldl_cons, List.foldl_nil, path.cleanStep_plain rooted _ name h]
  simp

theorem path.isRooted_plain (name : List Char) (h : path.Plain name) :
    path.isRooted name = false := by
  cases name with
  | nil => rfl
  | cons c cs =>
    have hc : c ≠ '/' := fun hc => h.2.2.2 (by simp [hc])
    unfold path.isRooted
    split
    · next heq => injection heq with h1 _; exact absurd h1 hc
    · rfl

/-- Joining a plain name to a path adds that name to the key the path resolves to. -/
theorem resolve_Join (p name : String) (h : path.Plain name.data) :
    resolve (path.Join p name) = resolve p ++ [name] := by
  have hsplit : path.splitSlash name.data = [name.data] :=
    path.splitSlash_of_no_slash _ h.2.2.2
  by_cases hp : p.data = []
  · have hj : path.Join p name = name := by
      apply String.ext
      simp only [path.Join, hp, if_true, if_neg h.1, path.Clean, path.cleanChars,
        path.isRooted_plain _ h, hsplit]
      have : path.cleanSegs false [name.data] = [name.data] :=
        path.cleanSegs_plain false _ (by simpa using h)
      rw [this]
      simp [path.render, List.intercalate, List.intersperse]
    rw [hj]
    unfold resolve
    rw [hsplit, hp]
    have h1 : path.cleanSegs true [name.data] = [name.data] :=
      path.cleanSegs_plain true _ (by simpa using h)
    have h2 : path.cleanSegs true (path.splitSlash []) = [] := by decide
    rw [h1, h2]
    rfl
  · have hns := path.no_slash_of_mem_splitSlash p.data
    have hj : (path.Join p name).data = path.render (path.isRooted p.data)
        (path.cleanSegs (path.isRooted p.data) (path.splitSlash p.data) ++ [name.data]) := by
      simp only [path.Join, if_neg hp, path.Clean, path.cleanChars]
      rw [if_neg (by simp [hp]), path.isRooted_append_of_ne_nil _ _ hp,
        path.splitSlash_append_slash, hsplit, path.cleanSegs_append_plain _ _ _ h]
    have key : path.cleanSegs true (path.splitSlash (path.Join p name).data) =
        path.cleanSegs true (path.splitSlash p.data) ++ [name.data] := by
      rw [hj]
      have hnoslash : ∀ s ∈ path.cleanSegs (path.isRooted p.data) (path.splitSlash p.data) ++
          [name.data], '/' ∉ s := by
        intro s hs
        rcases List.mem_append.1 hs with h1 | h1
        · exact path.no_slash_of_mem_cleanSegs _ _ hns s h1
        · simp at h1; subst h1; exact h.2.2.2
      cases hr : path.isRooted p.data with
      | true =>
        simp only [path.render, if_true]
        apply path.splitSlash_rendered
        intro s hs
        rcases List.mem_append.1 hs with h1 | h1
        · exact path.cleanSegs_rooted_plain _ hns s h1
        · simp at h1; subst h1; exact h
      | false =>
        rw [hr] at hnoslash
        simp only [path.render, Bool.false_eq_true, if_false]
        rw [if_neg (by simp), path.splitSlash_intercalate _ (by simp) hnoslash]
        exact path.cleanSegs_cleanSegs_append false _ [name.data] hns (by simpa using h)
    unfold resolve
    rw [key]
    simp

/-! ## Well-formed stores -/

theorem Store.mem_of_get (s : Store) (k : Key) (n : Node) (h : Store.get s k = some n) :
    (k, n) ∈ s := by
  induction s with
  | nil => simp [Store.get_nil] at h
  | cons e s ih =>
    obtain ⟨k1, n1⟩ := e
    rw [Store.get_cons] at h
    by_cases hk : k = k1
    · rw [if_pos hk] at h
      cases h; subst hk
      exact List.mem_cons_self _ _
    · rw [if_neg hk] at h
      exact List.mem_cons_of_mem _ (ih h)

theorem Store.get_of_mem (s : Store) (k : Key) (n : Node) (hnd : (s.map Prod.fst).Nodup)
    (h : (k, n) ∈ s) : Store.get s k = some n := by
  induction s with
  | nil => simp at h
  | cons e s ih =>
    obtain ⟨k1, n1⟩ := e
    rw [List.map_cons, List.nodup_cons] at hnd
    rw [Store.get_cons]
    rcases List.mem_cons.1 h with h1 | h1
    · cases h1; simp
    · have hk : k ≠ k1 := by
        intro hk; subst hk
        exact hnd.1 (List.mem_map.2 ⟨(k, n), h1, rfl⟩)
      rw [if_neg hk]
      exact ih hnd.2 h1

theorem Store.get_filter_key (q : Key → Bool) (s : Store) (k : Key) :
    Store.get (s.filter (fun e => q e.1)) k = if q k = true then Store.get s k else none := by
  by_cases h : q k = true
  · rw [if_pos h]; exact Store.get_filter_of_true _ k s (fun _ => h)
  · rw [if_neg h]
    exact Store.get_filter_of_false _ k s (fun _ => by simpa using h)

theorem Store.isChild_iff (d k : Key) : Store.isChild d k = true ↔ ∃ x, k = d ++ [x] := by
  unfold Store.isChild
  simp only [Bool.and_eq_true, decide_eq_true_eq, List.isPrefixOf_iff_prefix]
  constructor
  · rintro ⟨hlen, t, rfl⟩
    rw [List.length_append] at hlen
    have ht : t.length = 1 := by omega
    obtain ⟨x, rfl⟩ := List.length_eq_one.1 ht
    exact ⟨x, rfl⟩
  · rintro ⟨x, rfl⟩
    exact ⟨by simp, List.prefix_append _ _⟩

theorem Store.isDirAt_iff (s : Store) (k : Key) :
    s.isDirAt k = true ↔ ∃ l t, Store.get s k = some (.dir l t) := by
  unfold Store.isDirAt
  cases h : Store.get s k with
  | none => simp
  | some n =>
    cases n with
    | file data t => simp [Node.isDir]
    | dir l t => simp [Node.isDir]

theorem Store.WF_filter_notUnder (s : Store) (y : Key) (h : s.WF) :
    Store.WF (s.filter (fun e => decide (¬ y <+: e.1))) := by
  obtain ⟨h1, h2, h3⟩ := h
  refine ⟨?_, ?_, ?_⟩
  · exact h1.sublist ((List.filter_sublist _).map _)
  · intro e he
    exact h2 e (List.mem_of_mem_filter he)
  · intro e he hne
    have hes := List.mem_of_mem_filter he
    have hny : ¬ y <+: e.1 := by simpa using (List.mem_filter.1 he).2
    have hd := h3 e hes hne
    have hny2 : ¬ y <+: e.1.dropLast :=
      fun hp => hny (hp.trans (List.dropLast_prefix _))
    unfold Store.isDirAt at hd ⊢
    rw [Store.get_filter_key (fun k => decide (¬ y <+: k))]
    simpa [hny2] using hd

theorem List.prefix_dropLast_of_ne {α : Type} (k l : List α) (h : k <+: l) (hne : k ≠ l) :
    k <+: l.dropLast := by
  obtain ⟨t, rfl⟩ := h
  have ht : t ≠ [] := by
    intro ht; subst ht; simp at hne
  rw [List.dropLast_append_of_ne_nil k ht]
  exact List.prefix_append _ _

/-- In a well-formed store every proper ancestor of an entry is a directory of the store. -/
theorem Store.ancestor_isDir (s : Store) (h : s.WF) :
    ∀ (m : Nat) (e : Key × Node), e.1.length = m → e ∈ s → ∀ k, k <+: e.1 → k ≠ e.1 →
      s.isDirAt k = true := by
  intro m
  induction m using Nat.strong_induction_on with
  | _ m ih =>
    intro e hm he k hk hne
    have hnil : e.1 ≠ [] := by
      intro h0
      rw [h0] at hk hne
      exact hne (List.prefix_nil.1 hk)
    have hd := h.2.2 e he hnil
    by_cases hkd : k = e.1.dropLast
    · rw [hkd]; exact hd
    · obtain ⟨l, t, hget⟩ := (Store.isDirAt_iff s _).1 hd
      have hmem := Store.mem_of_get s _ _ hget
      refine ih (e.1.dropLast.length) ?_ (e.1.dropLast, .dir l t) rfl hmem k
        (List.prefix_dropLast_of_ne k e.1 hk hne) hkd
      rw [List.length_dropLast, ← hm]
      have : 0 < e.1.length := List.length_pos.2 hnil
      omega

/-- The entries at or below a child are fewer than those at or below its parent. -/
theorem Store.length_under_child_lt (s : Store) (d : Key) (x : String) (n : Node)
    (hd : (d, n) ∈ s) :
    (s.filter (fun e => decide (d ++ [x] <+: e.1))).length <
      (s.filter (fun e => decide (d <+: e.1))).length := by
  have e1 : s.filter (fun e => decide (d ++ [x] <+: e.1)) =
      (s.filter (fun e => decide (d <+: e.1))).filter (fun e => decide (d ++ [x] <+: e.1)) := by
    rw [List.filter_filter]
    apply List.filter_congr
    intro e _
    by_cases hp : d ++ [x] <+: e.1
    · have : d <+: e.1 := (List.prefix_append d [x]).trans hp
      simp [hp, this]
    · simp [hp]
  rw [e1]
  apply List.length_filter_lt_length_iff_exists.2
  refine ⟨(d, n), List.mem_filter.2 ⟨hd, by simp⟩, ?_⟩
  simp only [decide_eq_true_eq]
  intro hp
  have := hp.length_le
  simp at this

theorem Store.length_under_filter_le (s : Store) (d : Key) (q : Key × Node → Bool) :
    ((s.filter q).filter (fun e => decide (d <+: e.1))).length ≤
      (s.filter (fun e => decide (d <+: e.1))).length := by
  rw [List.filter_filter]
  have : s.filter (fun a => (decide (d <+: a.1) && q a)) =
      (s.filter (fun e => decide (d <+: e.1))).filter q := by
    rw [List.filter_filter]
    apply List.filter_congr
    intro e _
    exact Bool.and_comm _ _
  rw [this]
  exact List.length_filter_le _ _

/-- Two different children of one directory: neither is at or below the other. -/
theorem Store.sibling_not_under (d : Key) (x y : String) (k : Key) (hxy : x ≠ y)
    (hk : d ++ [x] <+: k) : ¬ d ++ [y] <+: k := by
  intro hy
  rcases List.prefix_or_prefix_of_prefix hk hy with h | h
  · have := h.eq_of_length (by simp)
    exact hxy (by simpa using this)
  · have := h.eq_of_length (by simp)
    exact hxy (by simpa using this.symm)

/-! ## The requests of a recursive deletion -/

theorem Client.ReadDir_listable (c : Client) (p : String) (t : Nat)
    (h : c.store.get (resolve p) = some (.dir true t)) :
    c.ReadDir p = (.ok ((c.store.children (resolve p)).map (fun e => infoOf e.1 e.2)),
      c.record (.readDir p) true) := by
  simp [Client.ReadDir, h]

theorem Store.children_filter (s : Store) (k : Key) (q : Key × Node → Bool)
    (h : ∀ e ∈ s, k <+: e.1 → q e = true) : Store.children (s.filter q) k = s.children k := by
  unfold Store.children
  rw [List.filter_filter]
  apply List.filter_congr
  intro e he
  by_cases hc : Store.isChild k e.1 = true
  · obtain ⟨x, hx⟩ := (Store.isChild_iff k e.1).1 hc
    have : q e = true := h e he (hx ▸ List.prefix_append _ _)
    simp [hc, this]
  · simp [hc]

theorem baseName_append (k : Key) (x : String) : baseName (k ++ [x]) = x := by
  simp [baseName]

/-- The child entries of `k` in a well-formed store have a plain last name, and joining it to
any path that resolves to `k` resolves to the child's key. -/
theorem Store.child_resolve (s : Store) (h : s.WF) (p : String) (e : Key × Node)
    (he : e ∈ s.children (resolve p)) :
    resolve (path.Join p (baseName e.1)) = e.1 ∧ e.1 = resolve p ++ [baseName e.1] := by
  have hmem := List.mem_of_mem_filter he
  obtain ⟨x, hx⟩ := (Store.isChild_iff _ _).1 (by simpa using (List.mem_filter.1 he).2)
  have hplain : path.Plain x.data := h.2.1 e hmem x (by rw [hx]; simp)
  rw [hx, baseName_append]
  exact ⟨resolve_Join p x hplain, rfl⟩

theorem plan_filter (s : Store) (h : s.WF) (y : Key) :
    ∀ (fuel : Nat) (p : String), (∀ k, resolve p <+: k → ¬ y <+: k) →
      plan fuel (s.filter (fun e => decide (¬ y <+: e.1))) p = plan fuel s p := by
  intro fuel
  induction fuel with
  | zero => intro p _; rfl
  | succ fuel ih =>
    intro p hp
    have hch : Store.children (s.filter (fun e => decide (¬ y <+: e.1))) (resolve p) =
        s.children (resolve p) :=
      Store.children_filter s _ _ (fun e _ hk => by simpa using hp e.1 hk)
    unfold plan
    rw [hch]
    congr 2
    apply List.flatMap_congr
    intro e he
    have hec := List.mem_of_mem_filter he
    obtain ⟨hr, hk⟩ := Store.child_resolve s h p e hec
    apply ih
    intro k hk1
    rw [hr] at hk1
    exact hp k ((hk ▸ List.prefix_append _ _ : resolve p <+: e.1).trans hk1)

theorem runDeferred_files (now : Nat) :
    ∀ (ps : List String) (s : Store) (lg : List (Request × Bool)),
      (∀ p ∈ ps, ∃ data t, Store.get s (resolve p) = some (.file data t)) →
      (ps.map resolve).Nodup →
      runDeferred ps ⟨s, now, lg⟩ =
        ⟨s.filter (fun e => decide (e.1 ∉ ps.map resolve)), now,
          lg ++ ps.map (fun p => (Request.remove p, true))⟩ := by
  intro ps
  induction ps with
  | nil => intro s lg _ _; simp [runDeferred]
  | cons p ps ih =>
    intro s lg hfile hnd
    rw [List.map_cons, List.nodup_cons] at hnd
    obtain ⟨data, t, hget⟩ := hfile p (List.mem_cons_self _ _)
    have hrem : (Client.Remove ⟨s, now, lg⟩ p).2 =
        ⟨s.erase (resolve p), now, lg ++ [(Request.remove p, true)]⟩ := by
      simp [Client.Remove, hget, Client.record]
    unfold runDeferred
    rw [hrem, ih]
    · congr 1
      · unfold Store.erase
        rw [List.filter_filter]
        apply List.filter_congr
        intro e _
        by_cases h1 : e.1 = resolve p <;> by_cases h2 : e.1 ∈ List.map resolve ps <;>
          simp [h1, h2]
      · simp
    · intro q hq
      obtain ⟨data1, t1, hget1⟩ := hfile q (List.mem_cons_of_mem _ hq)
      refine ⟨data1, t1, ?_⟩
      rw [Store.get_erase_of_ne _ _ _ ?_]
      · exact hget1
      · intro heq
        exact hnd.1 (heq ▸ List.mem_map.2 ⟨q, hq, rfl⟩)
    · exact hnd.2

theorem infoOf_IsDir (k : Key) (n : Node) : (infoOf k n).IsDir = n.isDir := by
  cases n <;> rfl

theorem infoOf_Name (k : Key) (n : Node) : (infoOf k n).Name = baseName k := by
  cases n <;> rfl

/-- The loop of `DeleteDirectory` over child entries `todo` of `dir_path`, given that the
recursive call behaves as planned on every listable directory that is small enough. -/
theorem deleteLoop_plan (fuel : Nat) (dir_path : String) (now : Nat)
    (ih : ∀ (c : Client) (p : String) (t : Nat), c.store.WF →
      c.store.get (resolve p) = some (.dir true t) → c.store.Listable (resolve p) →
      (c.store.filter (fun e => decide (resolve p <+: e.1))).length ≤ fuel →
      deleteDirectory fuel p c = some (none,
        ⟨c.store.filter (fun e => decide (¬ resolve p <+: e.1)), c.now,
          c.log ++ plan fuel c.store p⟩)) :
    ∀ (todo s : Store) (lg : List (Request × Bool)) (deferred : List String),
      s.WF → s.Listable (resolve dir_path) → (∃ n, (resolve dir_path, n) ∈ s) →
      (s.filter (fun e => decide (resolve dir_path <+: e.1))).length ≤ fuel + 1 →
      (∀ e ∈ todo, e ∈ s.children (resolve dir_path)) → (todo.map Prod.fst).Nodup →
      deleteLoop (deleteDirectory fuel) dir_path (todo.map (fun e => infoOf e.1 e.2))
          ⟨s, now, lg⟩ deferred =
        some (⟨s.filter (fun (e : Key × Node) =>
              decide (∀ x ∈ todo.filter (fun (x : Key × Node) => x.2.isDir), ¬ x.1 <+: e.1)), now,
            lg ++ (todo.filter (fun x => x.2.isDir)).flatMap
              (fun x => plan fuel s (path.Join dir_path (baseName x.1)))⟩,
          ((todo.filter (fun x => !x.2.isDir)).map
            (fun x => path.Join dir_path (baseName x.1))).reverse ++ deferred) := by
  intro todo
  induction todo with
  | nil =>
    intro s lg deferred _ _ _ _ _ _
    simp [deleteLoop]
  | cons e todo ihl =>
    intro s lg deferred hwf hlist hd hlen hch hnd
    rw [List.map_cons, List.nodup_cons] at hnd
    have hech := hch e (List.mem_cons_self _ _)
    have hes : e ∈ s := List.mem_of_mem_filter hech
    obtain ⟨hr, hk⟩ := Store.child_resolve s hwf dir_path e hech
    have htodo : ∀ x ∈ todo, x ∈ s.children (resolve dir_path) :=
      fun x hx => hch x (List.mem_cons_of_mem _ hx)
    rw [List.map_cons]
    unfold deleteLoop
    rw [infoOf_IsDir, infoOf_Name]
    cases hdir : e.2.isDir with
    | false =>
      simp only [Bool.false_eq_true, if_false]
      rw [ihl s lg _ hwf hlist hd hlen htodo hnd.2]
      have e1 : (e :: todo).filter (fun x => x.2.isDir) = todo.filter (fun x => x.2.isDir) := by
        rw [List.filter_cons_of_neg (by simp [hdir])]
      have e2 : (e :: todo).filter (fun x => !x.2.isDir) =
          e :: todo.filter (fun x => !x.2.isDir) := by
        rw [List.filter_cons_of_pos (by simp [hdir])]
      rw [e1, e2, List.map_cons, List.reverse_cons, List.append_assoc]
      rfl
    | true =>
      simp only [if_true]
      obtain ⟨l, t, hnode⟩ : ∃ l t, e.2 = .dir l t := by
        cases hn : e.2 with
        | file data t => rw [hn] at hdir; simp [Node.isDir] at hdir
        | dir l t => exact ⟨l, t, rfl⟩
      have hl : l = true := by
        have := hlist e hes (hk ▸ List.prefix_append _ _)
        rw [hnode] at this
        exact this
      subst hl
      have hget : Store.get s e.1 = some (.dir true t) := by
        rw [← hnode]; exact Store.get_of_mem s e.1 e.2 hwf.1 hes
      obtain ⟨n, hdn⟩ := hd
      have hlt : (s.filter (fun x => decide (e.1 <+: x.1))).length ≤ fuel := by
        have := Store.length_under_child_lt s (resolve dir_path) (baseName e.1) n hdn
        rw [← hk] at this
        omega
      have hrec := ih ⟨s, now, lg⟩ (path.Join dir_path (baseName e.1)) t hwf
        (by rw [hr]; exact hget)
        (by rw [hr]; intro x hx hp
            exact hlist x hx ((hk ▸ List.prefix_append _ _ : resolve dir_path <+: e.1).trans hp))
        (by rw [hr]; exact hlt)
      rw [hr] at hrec
      rw [hrec]
      simp only
      have hsib : ∀ x ∈ todo, ∀ k, x.1 <+: k → ¬ e.1 <+: k := by
        intro x hx k hxk
        obtain ⟨_, hkx⟩ := Store.child_resolve s hwf dir_path x (htodo x hx)
        have hne : baseName x.1 ≠ baseName e.1 := by
          intro hb
          apply hnd.1
          have : x.1 = e.1 := by rw [hkx, hk, hb]
          exact this ▸ List.mem_map.2 ⟨x, hx, rfl⟩
        rw [hk]
        rw [hkx] at hxk
        exact Store.sibling_not_under _ _ _ k hne hxk
      rw [ihl _ _ _ (Store.WF_filter_notUnder s e.1 hwf)
        (fun x hx => hlist x (List.mem_of_mem_filter hx))
        ⟨n, List.mem_filter.2 ⟨hdn, by
          simp only [decide_eq_true_eq]
          intro hp
          have := hp.length_le
          rw [hk] at this
          simp at this⟩⟩
        (le_trans (Store.length_under_filter_le s _ _) hlen)
        (fun x hx => by
          have hxc := htodo x hx
          unfold Store.children at hxc ⊢
          rw [List.mem_filter] at hxc ⊢
          refine ⟨List.mem_filter.2 ⟨hxc.1, ?_⟩, hxc.2⟩
          simpa using hsib x hx x.1 (List.prefix_refl _))
        hnd.2]
      have e1 : (e :: todo).filter (fun x => x.2.isDir) =
          e :: todo.filter (fun x => x.2.isDir) := by
        rw [List.filter_cons_of_pos (by simp [hdir])]
      have e2 : (e :: todo).filter (fun x => !x.2.isDir) =
          todo.filter (fun x => !x.2.isDir) := by
        rw [List.filter_cons_of_neg (by simp [hdir])]
      rw [e1, e2]
      have e3 : (todo.filter (fun x => x.2.isDir)).flatMap
          (fun x => plan fuel (s.filter (fun e1 => decide (¬ e.1 <+: e1.1)))
            (path.Join dir_path (baseName x.1))) =
          (todo.filter (fun x => x.2.isDir)).flatMap
            (fun x => plan fuel s (path.Join dir_path (baseName x.1))) := by
        apply List.flatMap_congr
        intro x hx
        have hxt := List.mem_of_mem_filter hx
        obtain ⟨hrx, _⟩ := Store.child_resolve s hwf dir_path x (htodo x hxt)
        apply plan_filter s hwf
        rw [hrx]
        exact hsib x hxt
      rw [e3]
      congr 2
      · congr 1
        · rw [List.filter_filter]
          apply List.filter_congr
          intro x _
          rw [Bool.eq_iff_iff]
          simp only [Bool.and_eq_true, decide_eq_true_eq, List.forall_mem_cons]
          exact and_comm
        · rw [List.flatMap_cons, List.append_assoc]

theorem Store.child_of_prefix (d k : Key) (h : d <+: k) (hne : d ≠ k) :
    ∃ x, d ++ [x] <+: k := by
  obtain ⟨t, rfl⟩ := h
  cases t with
  | nil => simp at hne
  | cons x t => exact ⟨x, ⟨t, by simp⟩⟩

/-- In a well-formed store, an entry escapes the deletion of every subdirectory of `d`, of
every file of `d` and of `d` itself exactly when it does not lie at or below `d`. -/
theorem Store.survives_iff (s : Store) (h : s.WF) (d : Key) (e : Key × Node) (he : e ∈ s) :
    ((∀ x ∈ (s.children d).filter (fun (x : Key × Node) => x.2.isDir), ¬ x.1 <+: e.1) ∧
      e.1 ∉ ((s.children d).filter (fun (x : Key × Node) => !x.2.isDir)).map Prod.fst ∧
      e.1 ≠ d) ↔ ¬ d <+: e.1 := by
  constructor
  · rintro ⟨h1, h2, h3⟩ hp
    obtain ⟨x, hx⟩ := Store.child_of_prefix d e.1 hp (fun hd => h3 hd.symm)
    have hchild : Store.isChild d (d ++ [x]) = true := (Store.isChild_iff _ _).2 ⟨x, rfl⟩
    by_cases hxe : d ++ [x] = e.1
    · have hec : e ∈ s.children d := List.mem_filter.2 ⟨he, by rw [← hxe]; exact hchild⟩
      cases hdir : e.2.isDir with
      | true =>
        exact h1 e (List.mem_filter.2 ⟨hec, hdir⟩) (List.prefix_refl _)
      | false =>
        exact h2 (List.mem_map.2 ⟨e, List.mem_filter.2 ⟨hec, by simp [hdir]⟩, rfl⟩)
    · have hanc := Store.ancestor_isDir s h e.1.length e rfl he (d ++ [x]) hx hxe
      obtain ⟨l, t, hget⟩ := (Store.isDirAt_iff s _).1 hanc
      have hmem := Store.mem_of_get s _ _ hget
      have hc : (d ++ [x], Node.dir l t) ∈ (s.children d).filter
          (fun (x : Key × Node) => x.2.isDir) :=
        List.mem_filter.2 ⟨List.mem_filter.2 ⟨hmem, hchild⟩, rfl⟩
      exact h1 _ hc hx
  · intro hnp
    refine ⟨?_, ?_, ?_⟩
    · intro x hx hxe
      have hxc := List.mem_of_mem_filter hx
      obtain ⟨y, hy⟩ := (Store.isChild_iff d x.1).1 (by simpa using (List.mem_filter.1 hxc).2)
      exact hnp ((hy ▸ List.prefix_append d [y] : d <+: x.1).trans hxe)
    · intro hm
      obtain ⟨x, hx, hxe⟩ := List.mem_map.1 hm
      have hxc := List.mem_of_mem_filter hx
      obtain ⟨y, hy⟩ := (Store.isChild_iff d x.1).1 (by simpa using (List.mem_filter.1 hxc).2)
      rw [← hxe, hy] at hnp
      exact hnp (List.prefix_append d [y])
    · intro hd
      exact hnp (hd ▸ List.prefix_refl _)

theorem Store.children_nodup (s : Store) (h : (s.map Prod.fst).Nodup) (d : Key)
    (q : Key × Node → Bool) : (((s.children d).filter q).map Prod.fst).Nodup :=
  h.sublist (((List.filter_sublist _).trans (List.filter_sublist _)).map _)

/-- A file of `d` is not at or below any subdirectory of `d`. -/
theorem Store.file_child_kept (s : Store) (h : s.WF) (d : Key) (e x : Key × Node)
    (he : e ∈ (s.children d).filter (fun (x : Key × Node) => !x.2.isDir))
    (hx : x ∈ (s.children d).filter (fun (x : Key × Node) => x.2.isDir)) : ¬ x.1 <+: e.1 := by
  intro hp
  have hec := List.mem_of_mem_filter he
  have hxc := List.mem_of_mem_filter hx
  obtain ⟨a, ha⟩ := (Store.isChild_iff d e.1).1 (by simpa using (List.mem_filter.1 hec).2)
  obtain ⟨b, hb⟩ := (Store.isChild_iff d x.1).1 (by simpa using (List.mem_filter.1 hxc).2)
  have hkey : x.1 = e.1 := hp.eq_of_length (by rw [ha, hb]; simp)
  have g1 := Store.get_of_mem s e.1 e.2 h.1 (List.mem_of_mem_filter hec)
  have g2 := Store.get_of_mem s x.1 x.2 h.1 (List.mem_of_mem_filter hxc)
  rw [hkey, g1] at g2
  have h1 : e.2.isDir = false := by simpa using (List.mem_filter.1 he).2
  have h2 : x.2.isDir = true := (List.mem_filter.1 hx).2
  injection g2 with g3
  rw [g3, h2] at h1
  cases h1

theorem plan_succ (fuel : Nat) (s : Store) (dir_path : String) :
    plan (fuel + 1) s dir_path =
      (.readDir dir_path, true) ::
        (((s.children (resolve dir_path)).filter (fun e => e.2.isDir)).flatMap
            (fun e => plan fuel s (path.Join dir_path (baseName e.1))) ++
          (((s.children (resolve dir_path)).filter (fun e => !e.2.isDir)).reverse.map
            (fun e => (Request.remove (path.Join dir_path (baseName e.1)), true)) ++
          [(.removeDirectory dir_path, true)])) := rfl

/-- On a well-formed store, `DeleteDirectory` of a listable directory whose subdirectories
are all listable returns success with enough budget, issues exactly the planned requests,
all of which succeed, and leaves the store without the entries at or below the directory. -/
theorem deleteDirectory_plan :
    ∀ (fuel : Nat) (c : Client) (p : String) (t : Nat), c.store.WF →
      c.store.get (resolve p) = some (.dir true t) → c.store.Listable (resolve p) →
      (c.store.filter (fun e => decide (resolve p <+: e.1))).length ≤ fuel →
      deleteDirectory fuel p c = some (none,
        ⟨c.store.filter (fun e => decide (¬ resolve p <+: e.1)), c.now,
          c.log ++ plan fuel c.store p⟩) := by
  intro fuel
  induction fuel with
  | zero =>
    intro c p t _ hget _ hlen
    have hmem := Store.mem_of_get _ _ _ hget
    have : (resolve p, Node.dir true t) ∈
        c.store.filter (fun e => decide (resolve p <+: e.1)) :=
      List.mem_filter.2 ⟨hmem, by simp⟩
    have hpos := List.length_pos_of_mem this
    omega
  | succ fuel ih =>
    intro c p t hwf hget hlist hlen
    obtain ⟨s, now, lg⟩ := c
    simp only at hwf hget hlist hlen ⊢
    have hmem := Store.mem_of_get _ _ _ hget
    unfold deleteDirectory
    rw [Client.ReadDir_listable _ p t hget]
    simp only [Client.record]
    rw [deleteLoop_plan fuel p now ih (s.children (resolve p)) s _ [] hwf hlist
      ⟨_, hmem⟩ hlen (fun e he => he)
      (hwf.1.sublist ((List.filter_sublist _).map _))]
    simp only [List.append_nil]
    have hres : ∀ e ∈ (s.children (resolve p)).filter (fun (x : Key × Node) => !x.2.isDir),
        resolve (path.Join p (baseName e.1)) = e.1 :=
      fun e he => (Store.child_resolve s hwf p e (List.mem_of_mem_filter he)).1
    have hmapres : (((s.children (resolve p)).filter (fun (x : Key × Node) => !x.2.isDir)).map
        (fun x => path.Join p (baseName x.1))).reverse.map resolve =
        (((s.children (resolve p)).filter
          (fun (x : Key × Node) => !x.2.isDir)).map Prod.fst).reverse := by
      rw [← List.map_reverse, ← List.map_reverse, List.map_map]
      apply List.map_congr_left
      intro e he
      exact hres e (List.mem_reverse.1 he)
    rw [runDeferred_files now]
    · rw [hmapres]
      have hd2 : Store.get ((s.filter (fun (e : Key × Node) => decide (∀ x ∈
            (s.children (resolve p)).filter (fun (x : Key × Node) => x.2.isDir),
              ¬ x.1 <+: e.1))).filter (fun e => decide (e.1 ∉
            (((s.children (resolve p)).filter
              (fun (x : Key × Node) => !x.2.isDir)).map Prod.fst).reverse)))
          (resolve p) = some (.dir true t) := by
        have hsurv := (Store.survives_iff s hwf (resolve p) _ hmem).2
        rw [List.filter_filter, Store.get_filter_key (fun k => (decide (k ∉
            (((s.children (resolve p)).filter
              (fun (x : Key × Node) => !x.2.isDir)).map Prod.fst).reverse) &&
          decide (∀ x ∈ (s.children (resolve p)).filter (fun (x : Key × Node) => x.2.isDir),
            ¬ x.1 <+: k)))]
        rw [if_pos, hget]
        have hself : ¬ resolve p <+: resolve p → False := fun h => h (List.prefix_refl _)
        simp only [Bool.and_eq_true, decide_eq_true_eq, List.mem_reverse]
        constructor
        · intro hm
          obtain ⟨x, hx, hxe⟩ := List.mem_map.1 hm
          have hxc := List.mem_of_mem_filter hx
          obtain ⟨y, hy⟩ := (Store.isChild_iff (resolve p) x.1).1
            (by simpa using (List.mem_filter.1 hxc).2)
          rw [hy] at hxe
          have := congrArg List.length hxe
          simp at this
        · intro x hx hp
          have hxc := List.mem_of_mem_filter hx
          obtain ⟨y, hy⟩ := (Store.isChild_iff (resolve p) x.1).1
            (by simpa using (List.mem_filter.1 hxc).2)
          have := hp.length_le
          rw [hy] at this
          simp at this
      have hempty : Store.children ((s.filter (fun (e : Key × Node) => decide (∀ x ∈
            (s.children (resolve p)).filter (fun (x : Key × Node) => x.2.isDir),
              ¬ x.1 <+: e.1))).filter (fun e => decide (e.1 ∉
            (((s.children (resolve p)).filter
              (fun (x : Key × Node) => !x.2.isDir)).map Prod.fst).reverse)))
          (resolve p) = [] := by
        unfold Store.children
        rw [List.filter_eq_nil_iff]
        intro e he hc
        have he1 := List.mem_filter.1 he
        have he2 := List.mem_filter.1 he1.1
        have hes := he2.1
        have hnot : ¬ ¬ resolve p <+: e.1 := by
          obtain ⟨y, hy⟩ := (Store.isChild_iff (resolve p) e.1).1 hc
          intro hn
          exact hn (hy ▸ List.prefix_append _ _)
        apply hnot
        apply (Store.survives_iff s hwf (resolve p) e hes).1
        refine ⟨of_decide_eq_true he2.2,
          fun h => (of_decide_eq_true he1.2) (List.mem_reverse.2 h), ?_⟩
        intro hd
        obtain ⟨y, hy⟩ := (Store.isChild_iff (resolve p) e.1).1 hc
        rw [hd] at hy
        have := congrArg List.length hy
        simp at this
      simp only [Client.RemoveDirectory, Client.rmdirStore, hd2, hempty, if_true, Client.record]
      congr 2
      congr 1
      · unfold Store.erase
        rw [List.filter_filter, List.filter_filter]
        apply List.filter_congr
        intro e he
        rw [Bool.eq_iff_iff]
        have := Store.survives_iff s hwf (resolve p) e he
        simp only [Bool.and_eq_true, decide_eq_true_eq, List.mem_reverse, ← this]
        tauto
      · rw [plan_succ, ← List.map_reverse, List.map_map]
        simp only [List.append_assoc, List.singleton_append, List.cons_append, List.nil_append]
        rfl
    · intro q hq
      obtain ⟨e, he, hqe⟩ := List.mem_map.1 (List.mem_reverse.1 hq)
      have hec := List.mem_of_mem_filter he
      have hes := List.mem_of_mem_filter hec
      have hfile : e.2.isDir = false := by simpa using (List.mem_filter.1 he).2
      rw [← hqe, hres e he]
      rw [Store.get_filter_key (fun k => decide (∀ x ∈
        (s.children (resolve p)).filter (fun (x : Key × Node) => x.2.isDir), ¬ x.1 <+: k))]
      rw [if_pos (by
        simp only [decide_eq_true_eq]
        exact fun x hx => Store.file_child_kept s hwf (resolve p) e x he hx)]
      rw [Store.get_of_mem s e.1 e.2 hwf.1 hes]
      cases hn : e.2 with
      | file data t1 => exact ⟨data, t1, rfl⟩
      | dir l t1 => rw [hn] at hfile; simp [Node.isDir] at hfile
    · rw [hmapres]
      exact List.nodup_reverse.2 (Store.children_nodup s hwf.1 _ _)

/-! ## What the planned requests remove -/

theorem Store.eq_of_key_eq (s : Store) (h : (s.map Prod.fst).Nodup) (e1 e2 : Key × Node)
    (h1 : e1 ∈ s) (h2 : e2 ∈ s) (hk : e1.1 = e2.1) : e1 = e2 := by
  have g1 := Store.get_of_mem s e1.1 e1.2 h h1
  have g2 := Store.get_of_mem s e2.1 e2.2 h h2
  rw [hk, g2] at g1
  injection g1 with g3
  exact Prod.ext hk g3.symm

theorem Store.child_under (d : Key) (c : Key × Node) (s : Store) (hc : c ∈ s.children d) :
    ∃ x, c.1 = d ++ [x] :=
  (Store.isChild_iff d c.1).1 (by simpa using (List.mem_filter.1 hc).2)

/-- The entries at or below `d` are those below its subdirectories, its files, and `d`. -/
theorem Store.under_perm (s : Store) (h : s.WF) (d : Key) (n : Node) (hd : (d, n) ∈ s) :
    (s.filter (fun e => decide (d <+: e.1))).Perm
      (((s.children d).filter (fun (x : Key × Node) => x.2.isDir)).flatMap
          (fun c => s.filter (fun e => decide (c.1 <+: e.1))) ++
        (((s.children d).filter (fun (x : Key × Node) => !x.2.isDir)).reverse ++ [(d, n)])) := by
  have hsnd : s.Nodup := List.Nodup.of_map Prod.fst h.1
  have hdirs_nd : ((s.children d).filter (fun (x : Key × Node) => x.2.isDir)).Nodup :=
    hsnd.sublist ((List.filter_sublist _).trans (List.filter_sublist _))
  have hfiles_nd : ((s.children d).filter (fun (x : Key × Node) => !x.2.isDir)).Nodup :=
    hsnd.sublist ((List.filter_sublist _).trans (List.filter_sublist _))
  have hmemS : ∀ (q : Key × Node → Bool) (e : Key × Node),
      e ∈ (s.children d).filter q → e ∈ s :=
    fun q e he => List.mem_of_mem_filter (List.mem_of_mem_filter he)
  apply (List.perm_ext_iff_of_nodup (hsnd.sublist (List.filter_sublist _)) ?_).2
  · intro e
    constructor
    · intro he
      have hes := List.mem_of_mem_filter he
      have hp : d <+: e.1 := of_decide_eq_true (List.mem_filter.1 he).2
      by_contra hne
      rw [List.mem_append, List.mem_append, List.mem_reverse, List.mem_flatMap] at hne
      have hsurv := (Store.survives_iff s h d e hes).1 ⟨?_, ?_, ?_⟩
      · exact hsurv hp
      · intro x hx hxe
        exact hne (Or.inl ⟨x, hx, List.mem_filter.2 ⟨hes, decide_eq_true hxe⟩⟩)
      · intro hm
        obtain ⟨x, hx, hxe⟩ := List.mem_map.1 hm
        have : x = e := Store.eq_of_key_eq s h.1 x e (hmemS _ x hx) hes hxe
        exact hne (Or.inr (Or.inl (this ▸ hx)))
      · intro hed
        have : e = (d, n) := Store.eq_of_key_eq s h.1 e (d, n) hes hd hed
        exact hne (Or.inr (Or.inr (by simp [this])))
    · intro he
      rw [List.mem_append, List.mem_append, List.mem_reverse, List.mem_flatMap] at he
      rcases he with ⟨c, hc, hec⟩ | hf | hdd
      · obtain ⟨x, hx⟩ := Store.child_under d c s (List.mem_of_mem_filter hc)
        have hp : c.1 <+: e.1 := of_decide_eq_true (List.mem_filter.1 hec).2
        exact List.mem_filter.2 ⟨List.mem_of_mem_filter hec,
          decide_eq_true ((hx ▸ List.prefix_append d [x] : d <+: c.1).trans hp)⟩
      · obtain ⟨x, hx⟩ := Store.child_under d e s (List.mem_of_mem_filter hf)
        exact List.mem_filter.2 ⟨hmemS _ e hf, decide_eq_true (hx ▸ List.prefix_append d [x])⟩
      · simp at hdd
        subst hdd
        exact List.mem_filter.2 ⟨hd, decide_eq_true (List.prefix_refl _)⟩
  · rw [List.nodup_append]
    refine ⟨?_, ?_, ?_⟩
    · rw [List.nodup_flatMap]
      refine ⟨fun c _ => hsnd.sublist (List.filter_sublist _), ?_⟩
      apply hdirs_nd.pairwise_of_forall_ne
      intro a ha b hb hab e hea heb
      obtain ⟨x, hx⟩ := Store.child_under d a s (List.mem_of_mem_filter ha)
      obtain ⟨y, hy⟩ := Store.child_under d b s (List.mem_of_mem_filter hb)
      have hpa : a.1 <+: e.1 := of_decide_eq_true (List.mem_filter.1 hea).2
      have hpb : b.1 <+: e.1 := of_decide_eq_true (List.mem_filter.1 heb).2
      have hxy : x ≠ y := by
        intro hxy
        apply hab
        exact Store.eq_of_key_eq s h.1 a b (hmemS _ a ha) (hmemS _ b hb) (by rw [hx, hy, hxy])
      rw [hx] at hpa
      rw [hy] at hpb
      exact Store.sibling_not_under d x y e.1 hxy hpa hpb
    · rw [List.nodup_append]
      refine ⟨List.nodup_reverse.2 hfiles_nd, List.nodup_singleton _, ?_⟩
      intro e he hed
      simp at hed
      obtain ⟨x, hx⟩ := Store.child_under d e s
        (List.mem_of_mem_filter (List.mem_reverse.1 he))
      rw [hed] at hx
      have := congrArg List.length hx
      simp at this
    · intro e he1 he2
      rw [List.mem_flatMap] at he1
      obtain ⟨c, hc, hec⟩ := he1
      have hp : c.1 <+: e.1 := of_decide_eq_true (List.mem_filter.1 hec).2
      obtain ⟨x, hx⟩ := Store.child_under d c s (List.mem_of_mem_filter hc)
      rw [List.mem_append, List.mem_reverse] at he2
      rcases he2 with hf | hdd
      · exact Store.file_child_kept s h d e c hf hc hp
      · simp at hdd
        rw [hdd, hx] at hp
        have := hp.length_le
        simp at this

theorem plan_removals_succ (fuel : Nat) (s : Store) (p : String) :
    (plan (fuel + 1) s p).filterMap removalOf =
      ((s.children (resolve p)).filter (fun (x : Key × Node) => x.2.isDir)).flatMap
          (fun e => (plan fuel s (path.Join p (baseName e.1))).filterMap removalOf) ++
        (((s.children (resolve p)).filter (fun (x : Key × Node) => !x.2.isDir)).reverse.map
            (fun e => Removal.file (resolve (path.Join p (baseName e.1)))) ++
          [Removal.dir (resolve p)]) := by
  rw [plan_succ, List.filterMap_cons_none (by rfl), List.filterMap_append,
    List.filterMap_append, List.filterMap_flatMap, List.filterMap_map]
  congr 2
  · have : (removalOf ∘ fun (e : Key × Node) =>
        (Request.remove (path.Join p (baseName e.1)), true)) =
        some ∘ fun (e : Key × Node) => Removal.file (resolve (path.Join p (baseName e.1))) := by
      funext e; rfl
    rw [this, List.filterMap_eq_map]

theorem removalFor_of_isDir (e : Key × Node) (h : e.2.isDir = true) :
    removalFor e = .dir e.1 := by
  obtain ⟨k, n⟩ := e
  cases n with
  | file data t => simp [Node.isDir] at h
  | dir l t => rfl

theorem removalFor_of_not_isDir (e : Key × Node) (h : e.2.isDir = false) :
    removalFor e = .file e.1 := by
  obtain ⟨k, n⟩ := e
  cases n with
  | file data t => rfl
  | dir l t => simp [Node.isDir] at h

theorem Store.isDirAt_of_mem (s : Store) (h : (s.map Prod.fst).Nodup) (e : Key × Node)
    (he : e ∈ s) (hdir : e.2.isDir = true) : s.isDirAt e.1 = true := by
  unfold Store.isDirAt
  rw [Store.get_of_mem s e.1 e.2 h he]
  exact hdir

theorem Store.mem_of_isDirAt (s : Store) (k : Key) (h : s.isDirAt k = true) :
    ∃ n, (k, n) ∈ s ∧ n.isDir = true := by
  obtain ⟨l, t, hget⟩ := (Store.isDirAt_iff s k).1 h
  exact ⟨_, Store.mem_of_get s k _ hget, rfl⟩

/-- The planned requests remove every entry at or below the directory exactly once, with the
request that fits its kind, and nothing else. -/
theorem plan_removals_perm (s : Store) (h : s.WF) :
    ∀ (fuel : Nat) (p : String), s.isDirAt (resolve p) = true →
      (s.filter (fun e => decide (resolve p <+: e.1))).length ≤ fuel →
      ((plan fuel s p).filterMap removalOf).Perm
        ((s.filter (fun e => decide (resolve p <+: e.1))).map removalFor) := by
  intro fuel
  induction fuel with
  | zero =>
    intro p hd hlen
    obtain ⟨n, hmem, _⟩ := Store.mem_of_isDirAt s _ hd
    have : (resolve p, n) ∈ s.filter (fun e => decide (resolve p <+: e.1)) :=
      List.mem_filter.2 ⟨hmem, by simp⟩
    have hpos := List.length_pos_of_mem this
    omega
  | succ fuel ih =>
    intro p hd hlen
    obtain ⟨n, hmem, hn⟩ := Store.mem_of_isDirAt s _ hd
    rw [plan_removals_succ]
    refine List.Perm.trans ?_ ((Store.under_perm s h (resolve p) n hmem).map removalFor).symm
    rw [List.map_append, List.map_append, List.map_flatMap]
    apply List.Perm.append
    · apply List.Perm.flatMap_left
      intro c hc
      have hcc := List.mem_of_mem_filter hc
      have hcs := List.mem_of_mem_filter hcc
      obtain ⟨hr, hk⟩ := Store.child_resolve s h p c hcc
      have hlt := Store.length_under_child_lt s (resolve p) (baseName c.1) n hmem
      rw [← hk] at hlt
      have := ih (path.Join p (baseName c.1))
        (by rw [hr]; exact Store.isDirAt_of_mem s h.1 c hcs (List.mem_filter.1 hc).2)
        (by rw [hr]; omega)
      rw [hr] at this
      exact this
    · apply List.Perm.append
      · apply List.Perm.of_eq
        apply List.map_congr_left
        intro e he
        have hef := List.mem_reverse.1 he
        rw [(Store.child_resolve s h p e (List.mem_of_mem_filter hef)).1,
          removalFor_of_not_isDir e (by simpa using (List.mem_filter.1 hef).2)]
      · apply List.Perm.of_eq
        simp [removalFor_of_isDir (resolve p, n) hn]

/-- Every planned request is a listing or a removal of a path at or below the directory, and
is planned to succeed. -/
theorem plan_requests (s : Store) (h : s.WF) :
    ∀ (fuel : Nat) (p : String), ∀ r ∈ plan fuel s p,
      r.2 = true ∧ ∃ q, (r.1 = .readDir q ∨ r.1 = .remove q ∨ r.1 = .removeDirectory q) ∧
        resolve p <+: resolve q := by
  intro fuel
  induction fuel with
  | zero => intro p r hr; simp [plan] at hr
  | succ fuel ih =>
    intro p r hr
    rw [plan_succ, List.mem_cons, List.mem_append, List.mem_append, List.mem_flatMap] at hr
    rcases hr with hr | ⟨c, hc, hrc⟩ | hr | hr
    · subst hr
      exact ⟨rfl, p, Or.inl rfl, List.prefix_refl _⟩
    · obtain ⟨h1, q, h2, h3⟩ := ih _ r hrc
      obtain ⟨hres, hk⟩ := Store.child_resolve s h p c (List.mem_of_mem_filter hc)
      rw [hres] at h3
      exact ⟨h1, q, h2, (hk ▸ List.prefix_append _ _ : resolve p <+: c.1).trans h3⟩
    · obtain ⟨e, he, hre⟩ := List.mem_map.1 hr
      obtain ⟨hres, hk⟩ := Store.child_resolve s h p e
        (List.mem_of_mem_filter (List.mem_reverse.1 he))
      subst hre
      refine ⟨rfl, _, Or.inr (Or.inl rfl), ?_⟩
      rw [hres]
      exact hk ▸ List.prefix_append _ _
    · simp at hr
      subst hr
      exact ⟨rfl, p, Or.inr (Or.inr rfl), List.prefix_refl _⟩

theorem List.sublist_flatMap_of_mem {α β : Type} (l : List α) (f : α → List β) (a : α)
    (h : a ∈ l) : List.Sublist (f a) (l.flatMap f) :=
  List.sublist_flatten_of_mem (List.mem_map_of_mem f h)

theorem List.pair_sublist_append_singleton {α : Type} (l : List α) (a b : α) (h : a ∈ l) :
    List.Sublist [a, b] (l ++ [b]) :=
  List.Sublist.append (List.singleton_sublist.2 h) (List.Sublist.refl [b])

/-- In the planned requests, the removal of an entry below the directory comes before the
removal of the directory that contains the entry. -/
theorem plan_order (s : Store) (h : s.WF) :
    ∀ (fuel : Nat) (p : String), s.isDirAt (resolve p) = true →
      (s.filter (fun e => decide (resolve p <+: e.1))).length ≤ fuel →
      ∀ e ∈ s, resolve p <+: e.1 → e.1 ≠ resolve p →
        List.Sublist [removalFor e, Removal.dir e.1.dropLast]
          ((plan fuel s p).filterMap removalOf) := by
  intro fuel
  induction fuel with
  | zero =>
    intro p hd hlen
    obtain ⟨n, hmem, _⟩ := Store.mem_of_isDirAt s _ hd
    have : (resolve p, n) ∈ s.filter (fun e => decide (resolve p <+: e.1)) :=
      List.mem_filter.2 ⟨hmem, by simp⟩
    have hpos := List.length_pos_of_mem this
    omega
  | succ fuel ih =>
    intro p hd hlen e he hp hne
    obtain ⟨n, hmem, hn⟩ := Store.mem_of_isDirAt s _ hd
    obtain ⟨x, hx⟩ := Store.child_of_prefix (resolve p) e.1 hp (fun hh => hne hh.symm)
    have hchild : Store.isChild (resolve p) (resolve p ++ [x]) = true :=
      (Store.isChild_iff _ _).2 ⟨x, rfl⟩
    rw [plan_removals_succ]
    by_cases hxe : resolve p ++ [x] = e.1
    · have hec : e ∈ s.children (resolve p) :=
        List.mem_filter.2 ⟨he, by rw [← hxe]; exact hchild⟩
      obtain ⟨hres, hk⟩ := Store.child_resolve s h p e hec
      have hdl : e.1.dropLast = resolve p := by rw [← hxe]; simp
      rw [hdl, ← List.append_assoc]
      apply List.pair_sublist_append_singleton
      rw [List.mem_append]
      cases hdir : e.2.isDir with
      | true =>
        left
        rw [List.mem_flatMap]
        refine ⟨e, List.mem_filter.2 ⟨hec, hdir⟩, ?_⟩
        have hlt := Store.length_under_child_lt s (resolve p) (baseName e.1) n hmem
        rw [← hk] at hlt
        have hperm := plan_removals_perm s h fuel (path.Join p (baseName e.1))
          (by rw [hres]; exact Store.isDirAt_of_mem s h.1 e he hdir) (by rw [hres]; omega)
        rw [hperm.mem_iff, hres]
        exact List.mem_map.2 ⟨e, List.mem_filter.2 ⟨he, by simp⟩, rfl⟩
      | false =>
        right
        rw [removalFor_of_not_isDir e hdir]
        refine List.mem_map.2 ⟨e, List.mem_reverse.2 (List.mem_filter.2 ⟨hec, by simp [hdir]⟩),
          ?_⟩
        rw [hres]
    · have hanc := Store.ancestor_isDir s h e.1.length e rfl he (resolve p ++ [x]) hx hxe
      obtain ⟨n1, hmem1, hn1⟩ := Store.mem_of_isDirAt s _ hanc
      have hcc : (resolve p ++ [x], n1) ∈ s.children (resolve p) :=
        List.mem_filter.2 ⟨hmem1, hchild⟩
      obtain ⟨hres, hk⟩ := Store.child_resolve s h p _ hcc
      have hlt := Store.length_under_child_lt s (resolve p) x n hmem
      have hsub := ih (path.Join p (baseName (resolve p ++ [x])))
        (by rw [hres]; exact hanc) (by rw [hres]; simp only; omega) e he
        (by rw [hres]; exact hx) (by rw [hres]; exact fun hh => hxe hh.symm)
      refine (hsub.trans ?_).trans (List.sublist_append_left _ _)
      exact List.sublist_flatMap_of_mem _
        (fun e => (plan fuel s (path.Join p (baseName e.1))).filterMap removalOf)
        (resolve p ++ [x], n1) (List.mem_filter.2 ⟨hcc, hn1⟩)

/-- C9: on a well-formed store in which `dir_path` resolves to a directory and every directory
at or below it lists, `DeleteDirectory` returns success for every budget that is at least the
size of the store.  The requests it issues are listings and removals of paths at or below the
directory, and all of them succeed, so every `RemoveDirectory` finds its directory empty.
The removals are, up to order, one `Remove` for every file and one `RemoveDirectory` for
every directory at or below `dir_path`; the removal of an entry comes before the removal of
the directory that contains it; and the store is left with exactly the entries that are not
at or below `dir_path`. -/
theorem DeleteDirectory_complete (fuel : Nat) (sftp : SFTP) (c : Client) (dir_path : String)
    (t : Nat) (hc : sftp.client = some c) (hwf : c.store.WF)
    (hdir : c.store.get (resolve dir_path) = some (.dir true t))
    (hlist : c.store.Listable (resolve dir_path)) (hfuel : c.store.length ≤ fuel) :
    ∃ reqs, SFTP.DeleteDirectory fuel sftp dir_path =
        some (.ok (), { sftp with
          client := some ⟨c.store.filter (fun e => decide (¬ resolve dir_path <+: e.1)),
            c.now, c.log ++ reqs⟩ }) ∧
      (∀ r ∈ reqs, r.2 = true ∧
        ∃ q, (r.1 = .readDir q ∨ r.1 = .remove q ∨ r.1 = .removeDirectory q) ∧
          resolve dir_path <+: resolve q) ∧
      (reqs.filterMap removalOf).Perm
        ((c.store.filter (fun e => decide (resolve dir_path <+: e.1))).map removalFor) ∧
      ∀ e ∈ c.store, resolve dir_path <+: e.1 → e.1 ≠ resolve dir_path →
        List.Sublist [removalFor e, Removal.dir e.1.dropLast] (reqs.filterMap removalOf) := by
  have hlen : (c.store.filter (fun e => decide (resolve dir_path <+: e.1))).length ≤ fuel :=
    le_trans (List.length_filter_le _ _) hfuel
  have hd : c.store.isDirAt (resolve dir_path) = true :=
    (Store.isDirAt_iff _ _).2 ⟨true, t, hdir⟩
  refine ⟨plan fuel c.store dir_path, ?_, plan_requests c.store hwf fuel dir_path,
    plan_removals_perm c.store hwf fuel dir_path hd hlen,
    plan_order c.store hwf fuel dir_path hd hlen⟩
  unfold SFTP.DeleteDirectory
  rw [hc]
  simp only
  rw [deleteDirectory_plan fuel c dir_path t hwf hdir hlist hlen]
  rfl

/-- C9 on the sample store: deleting `/root` of `root/{a.txt, sub/b.txt}`. -/
theorem DeleteDirectory_complete_witness :
    sampleSFTP.client = some sampleClient ∧ sampleClient.store.WF ∧
      sampleClient.store.get (resolve "/root") = some (.dir true 1) ∧
      sampleClient.store.Listable (resolve "/root") ∧ sampleClient.store.length ≤ 5 ∧
      ∃ reqs, SFTP.DeleteDirectory 5 sampleSFTP "/root" =
          some (.ok (), { sampleSFTP with
            client := some
              ⟨sampleClient.store.filter (fun e => decide (¬ resolve "/root" <+: e.1)),
                sampleClient.now, sampleClient.log ++ reqs⟩ }) ∧
        (∀ r ∈ reqs, r.2 = true ∧
          ∃ q, (r.1 = .readDir q ∨ r.1 = .remove q ∨ r.1 = .removeDirectory q) ∧
            resolve "/root" <+: resolve q) ∧
        (reqs.filterMap removalOf).Perm
          ((sampleClient.store.filter (fun e => decide (resolve "/root" <+: e.1))).map
            removalFor) ∧
        ∀ e ∈ sampleClient.store, resolve "/root" <+: e.1 → e.1 ≠ resolve "/root" →
          List.Sublist [removalFor e, Removal.dir e.1.dropLast] (reqs.filterMap removalOf) :=
  ⟨rfl, by decide, by decide, by decide, by decide,
    DeleteDirectory_complete 5 sampleSFTP sampleClient "/root" 1 rfl (by decide) (by decide)
      (by decide) (by decide)⟩

/-- Whatever happens below, `DeleteDirectory` reports an error only when the listing of
`dir_path` itself fails: the results of the recursive calls and of the removals are dropped. -/
theorem deleteDirectory_error_iff (fuel : Nat) (dir_path : String) (c c1 : Client)
    (r : Option GoError) (h : deleteDirectory fuel dir_path c = some (r, c1)) :
    r = none ↔ ∃ files, (c.ReadDir dir_path).1 = .ok files := by
  cases fuel with
  | zero => simp [deleteDirectory] at h
  | succ fuel =>
    unfold deleteDirectory at h
    rcases hrd : c.ReadDir dir_path with ⟨res, cA⟩
    rw [hrd] at h
    cases res with
    | error err =>
      simp only [Option.some.injEq, Prod.mk.injEq] at h
      rw [← h.1]
      simp
    | ok files =>
      simp only at h
      cases hl : deleteLoop (deleteDirectory fuel) dir_path files cA [] with
      | none => rw [hl] at h; simp at h
      | some res =>
        rw [hl] at h
        simp only [Option.some.injEq, Prod.mk.injEq] at h
        rw [← h.1]
        simp

/-! ## The recursive walk terminates -/

theorem sumBy_append {α : Type} (f : α → Nat) (l1 l2 : List α) :
    sumBy f (l1 ++ l2) = sumBy f l1 + sumBy f l2 := by
  induction l1 with
  | nil => simp [sumBy]
  | cons a l ih => simp [sumBy, ih, Nat.add_assoc]

theorem sumBy_perm {α : Type} (f : α → Nat) (l1 l2 : List α) (h : l1.Perm l2) :
    sumBy f l1 = sumBy f l2 := by
  induction h with
  | nil => rfl
  | cons a _ ih => simp [sumBy, ih]
  | swap a b l => simp only [sumBy]; omega
  | trans _ _ ih1 ih2 => exact ih1.trans ih2

theorem sumBy_flatMap {α β : Type} (f : β → Nat) (g : α → List β) (l : List α) :
    sumBy f (l.flatMap g) = sumBy (fun a => sumBy f (g a)) l := by
  induction l with
  | nil => rfl
  | cons a l ih => rw [List.flatMap_cons, sumBy_append, ih]; rfl

theorem sumBy_map {α β : Type} (f : β → Nat) (g : α → β) (l : List α) :
    sumBy f (l.map g) = sumBy (fun a => f (g a)) l := by
  induction l with
  | nil => rfl
  | cons a l ih => simp [sumBy, ih]

theorem sumBy_congr {α : Type} (f g : α → Nat) (l : List α) (h : ∀ a ∈ l, f a = g a) :
    sumBy f l = sumBy g l := by
  induction l with
  | nil => rfl
  | cons a l ih =>
    simp only [sumBy]
    rw [h a (List.mem_cons_self _ _), ih (fun b hb => h b (List.mem_cons_of_mem _ hb))]

/-- The entries at or below `d` are `d` itself and those at or below each of its children. -/
theorem Store.under_perm_children (s : Store) (h : s.WF) (d : Key) (n : Node)
    (hd : (d, n) ∈ s) :
    (s.filter (fun e => decide (d <+: e.1))).Perm
      ((d, n) :: (s.children d).flatMap (fun c => s.filter (fun e => decide (c.1 <+: e.1)))) := by
  have hsnd : s.Nodup := List.Nodup.of_map Prod.fst h.1
  apply (List.perm_ext_iff_of_nodup (hsnd.sublist (List.filter_sublist _)) ?_).2
  · intro e
    rw [List.mem_cons, List.mem_flatMap]
    constructor
    · intro he
      have hes := List.mem_of_mem_filter he
      have hp : d <+: e.1 := of_decide_eq_true (List.mem_filter.1 he).2
      by_cases hed : e.1 = d
      · exact Or.inl (Store.eq_of_key_eq s h.1 e (d, n) hes hd hed)
      · right
        obtain ⟨x, hx⟩ := Store.child_of_prefix d e.1 hp (fun hh => hed hh.symm)
        have hchild : Store.isChild d (d ++ [x]) = true := (Store.isChild_iff _ _).2 ⟨x, rfl⟩
        by_cases hxe : d ++ [x] = e.1
        · exact ⟨e, List.mem_filter.2 ⟨hes, by rw [← hxe]; exact hchild⟩,
            List.mem_filter.2 ⟨hes, decide_eq_true (List.prefix_refl _)⟩⟩
        · have hanc := Store.ancestor_isDir s h e.1.length e rfl hes (d ++ [x]) hx hxe
          obtain ⟨n1, hmem1, _⟩ := Store.mem_of_isDirAt s _ hanc
          exact ⟨(d ++ [x], n1), List.mem_filter.2 ⟨hmem1, hchild⟩,
            List.mem_filter.2 ⟨hes, decide_eq_true hx⟩⟩
    · rintro (he | ⟨c, hc, hec⟩)
      · subst he
        exact List.mem_filter.2 ⟨hd, decide_eq_true (List.prefix_refl _)⟩
      · obtain ⟨x, hx⟩ := Store.child_under d c s hc
        have hp : c.1 <+: e.1 := of_decide_eq_true (List.mem_filter.1 hec).2
        exact List.mem_filter.2 ⟨List.mem_of_mem_filter hec,
          decide_eq_true ((hx ▸ List.prefix_append d [x] : d <+: c.1).trans hp)⟩
  · rw [List.nodup_cons]
    constructor
    · rw [List.mem_flatMap]
      rintro ⟨c, hc, hec⟩
      obtain ⟨x, hx⟩ := Store.child_under d c s hc
      have hp : c.1 <+: d := of_decide_eq_true (List.mem_filter.1 hec).2
      have := hp.length_le
      rw [hx] at this
      simp at this
    · rw [List.nodup_flatMap]
      refine ⟨fun c _ => hsnd.sublist (List.filter_sublist _), ?_⟩
      apply (hsnd.sublist (List.filter_sublist _)).pairwise_of_forall_ne
      intro a ha b hb hab e hea heb
      obtain ⟨x, hx⟩ := Store.child_under d a s ha
      obtain ⟨y, hy⟩ := Store.child_under d b s hb
      have hpa : a.1 <+: e.1 := of_decide_eq_true (List.mem_filter.1 hea).2
      have hpb : b.1 <+: e.1 := of_decide_eq_true (List.mem_filter.1 heb).2
      have hxy : x ≠ y := by
        intro hxy
        apply hab
        exact Store.eq_of_key_eq s h.1 a b (List.mem_of_mem_filter ha)
          (List.mem_of_mem_filter hb) (by rw [hx, hy, hxy])
      rw [hx] at hpa
      rw [hy] at hpb
      exact Store.sibling_not_under d x y e.1 hxy hpa hpb

theorem Store.cost_eq (s : Store) (h : s.WF) (d : Key) (n : Node) (hd : (d, n) ∈ s) :
    s.cost d = Store.weight (d, n) + sumBy (fun c => s.cost c.1) (s.children d) := by
  unfold Store.cost
  rw [sumBy_perm _ _ _ (Store.under_perm_children s h d n hd)]
  simp only [sumBy]
  rw [sumBy_flatMap]

theorem Store.weight_pos (e : Key × Node) : 1 ≤ Store.weight e := by
  unfold Store.weight; split <;> omega

theorem Store.cost_pos (s : Store) (h : s.WF) (d : Key) (n : Node) (hd : (d, n) ∈ s) :
    1 ≤ s.cost d := by
  rw [Store.cost_eq s h d n hd]
  have := Store.weight_pos (d, n)
  omega

theorem Client.ReadDir_store (c : Client) (p : String) : (c.ReadDir p).2.store = c.store := by
  unfold Client.ReadDir
  split <;> rfl

theorem Client.Lstat_store (c : Client) (p : String) : (c.Lstat p).2.store = c.store := by
  unfold Client.Lstat
  split <;> rfl

/-- Listing the current entry keeps the store, keeps the stack in agreement with the store,
and leaves on the stack no more steps than the walker had to spend. -/
theorem Walker.expand_spec (w : Walker) (c : Client) (hwf : c.store.WF)
    (hcur : w.descend = true → w.cur.OK c.store) (hst : ∀ it ∈ w.stack, it.OK c.store) :
    (w.expand c).2.store = c.store ∧ (∀ it ∈ (w.expand c).1.stack, it.OK c.store) ∧
      sumBy (WalkItem.cost c.store) (w.expand c).1.stack ≤ w.potential c.store := by
  unfold Walker.expand
  by_cases hcond : (w.descend && w.cur.err.isNone &&
      (w.cur.info.map (·.IsDir)).getD false) = true
  · rw [if_pos hcond]
    simp only [Bool.and_eq_true] at hcond
    obtain ⟨⟨hdesc, herr⟩, hisdir⟩ := hcond
    have herr1 : w.cur.err = none := by
      cases he : w.cur.err with
      | none => rfl
      | some e => rw [he] at herr; cases herr
    obtain ⟨n, hmem, hinfo⟩ := hcur hdesc herr1
    have hn : n.isDir = true := by
      rw [hinfo] at hisdir
      simpa [infoOf_IsDir] using hisdir
    have hget := Store.get_of_mem c.store _ n hwf.1 hmem
    have hcost := Store.cost_eq c.store hwf _ n hmem
    have hw : Store.weight (resolve w.cur.path, n) = 2 := by simp [Store.weight, hn]
    have hpot : w.potential c.store =
        c.store.cost (resolve w.cur.path) - 1 + sumBy (WalkItem.cost c.store) w.stack := by
      unfold Walker.potential
      rw [if_pos (by simp [hdesc, herr, hisdir])]
    cases n with
    | file data t => simp [Node.isDir] at hn
    | dir l t =>
      cases l with
      | false =>
        have hrd : c.ReadDir w.cur.path =
            (.error "permission denied", c.record (.readDir w.cur.path) false) := by
          simp [Client.ReadDir, hget]
        rw [hrd]
        refine ⟨rfl, ?_, ?_⟩
        · intro it hit
          rcases List.mem_cons.1 hit with h1 | h1
          · subst h1
            intro habs
            cases habs
          · exact hst it h1
        · simp only [sumBy]
          have : WalkItem.cost c.store { w.cur with err := some "permission denied" } = 1 := by
            simp [WalkItem.cost]
          rw [this, hpot]
          omega
      | true =>
        rw [Client.ReadDir_listable c w.cur.path t hget]
        refine ⟨rfl, ?_, ?_⟩
        · intro it hit
          rcases List.mem_append.1 hit with h1 | h1
          · obtain ⟨i, hi, hit1⟩ := List.mem_map.1 h1
            obtain ⟨e, he, hie⟩ := List.mem_map.1 hi
            subst hie
            subst hit1
            intro _
            have hres := (Store.child_resolve c.store hwf w.cur.path e he).1
            rw [infoOf_Name]
            simp only
            rw [hres]
            exact ⟨e.2, List.mem_of_mem_filter he, rfl⟩
          · exact hst it h1
        · simp only
          rw [sumBy_append, List.map_map, sumBy_map, hpot, hcost, hw]
          have : sumBy (fun a => WalkItem.cost c.store
                (((fun (i : FileInfo) => (⟨path.Join w.cur.path i.Name, some i, none⟩ : WalkItem)) ∘
                  fun (e : Key × Node) => infoOf e.1 e.2) a))
              (c.store.children (resolve w.cur.path)) =
              sumBy (fun x => c.store.cost x.1) (c.store.children (resolve w.cur.path)) := by
            apply sumBy_congr
            intro e he
            have hres := (Store.child_resolve c.store hwf w.cur.path e he).1
            simp only [Function.comp, WalkItem.cost, infoOf_Name, Option.isSome_none,
              Bool.false_eq_true, if_false]
            rw [hres]
          rw [this]
          omega
  · rw [if_neg hcond]
    refine ⟨rfl, hst, ?_⟩
    unfold Walker.potential
    exact Nat.le_add_left _ _

/-- A step keeps the store; when it yields an entry, the walker still agrees with the store
and has strictly fewer steps left to spend. -/
theorem Walker.Step_spec (w : Walker) (c : Client) (hwf : c.store.WF)
    (hcur : w.descend = true → w.cur.OK c.store) (hst : ∀ it ∈ w.stack, it.OK c.store) :
    (w.Step c).2.2.store = c.store ∧
      ((w.Step c).1 = true →
        (w.Step c).2.1.descend = true ∧ (w.Step c).2.1.cur.OK c.store ∧
          (∀ it ∈ (w.Step c).2.1.stack, it.OK c.store) ∧
          (w.Step c).2.1.potential c.store < w.potential c.store) := by
  obtain ⟨h1, h2, h3⟩ := Walker.expand_spec w c hwf hcur hst
  unfold Walker.Step
  rcases hex : w.expand c with ⟨w1, c1⟩
  rw [hex] at h1 h2 h3
  simp only at h1 h2 h3 ⊢
  cases hs : w1.stack with
  | nil => exact ⟨h1, fun h => by cases h⟩
  | cons top rest =>
    rw [hs] at h2 h3
    refine ⟨h1, fun _ => ⟨rfl, h2 top (List.mem_cons_self _ _),
      fun it hit => h2 it (List.mem_cons_of_mem _ hit), ?_⟩⟩
    simp only [sumBy] at h3
    have hlt : (if (true && top.err.isNone && (top.info.map (·.IsDir)).getD false) = true
        then c.store.cost (resolve top.path) - 1 else 0) < WalkItem.cost c.store top := by
      unfold WalkItem.cost
      cases herr : top.err with
      | some e => simp
      | none =>
        obtain ⟨n, hmem, _⟩ := h2 top (List.mem_cons_self _ _) herr
        have hpos := Store.cost_pos c.store hwf _ n hmem
        simp only [Option.isSome_none, Bool.false_eq_true, if_false]
        split <;> omega
    have hgoal : Walker.potential c.store { cur := top, stack := rest, descend := true } =
        (if (true && top.err.isNone && (top.info.map (·.IsDir)).getD false) = true
          then c.store.cost (resolve top.path) - 1 else 0) +
          sumBy (WalkItem.cost c.store) rest := rfl
    rw [hgoal]
    omega

/-- With more budget than the walker has steps to spend, the loop of the recursive walk
returns, whatever the visitor does. -/
theorem walkRecursive_returns {σ : Type} (process : σ → sftpFile → Option GoError × σ)
    (dir : String) :
    ∀ (fuel : Nat) (w : Walker) (c : Client) (s : σ), c.store.WF →
      (w.descend = true → w.cur.OK c.store) → (∀ it ∈ w.stack, it.OK c.store) →
      w.potential c.store < fuel →
      ∃ r, walkRecursive process dir fuel w c s = some r := by
  intro fuel
  induction fuel with
  | zero => intro w c s _ _ _ h; omega
  | succ fuel ih =>
    intro w c s hwf hcur hst hpot
    obtain ⟨h1, h2⟩ := Walker.Step_spec w c hwf hcur hst
    unfold walkRecursive
    rcases hstep : w.Step c with ⟨b, w1, c1⟩
    rw [hstep] at h1 h2
    simp only at h1 h2
    cases b with
    | false => exact ⟨_, rfl⟩
    | true =>
      obtain ⟨hd, hc1, hs1, hlt⟩ := h2 rfl
      simp only
      have hrec : ∀ s1, ∃ r, walkRecursive process dir fuel w1 c1 s1 = some r := by
        intro s1
        apply ih w1 c1 s1
        · rw [h1]; exact hwf
        · rw [h1]; exact fun _ => hc1
        · rw [h1]; exact hs1
        · rw [h1]; omega
      cases herr : w1.Err with
      | some err => exact ⟨_, rfl⟩
      | none =>
        simp only
        cases hstat : w1.Stat with
        | none => exact hrec s
        | some entry =>
          simp only
          rcases hp : process s ⟨entry.Size, entry.ModTime, (filepath.Rel dir w1.Path).1⟩
            with ⟨r1, s1⟩
          cases r1 with
          | some err => exact ⟨_, rfl⟩
          | none => exact hrec s1

theorem sumBy_weight_le (l : Store) : sumBy Store.weight l ≤ 2 * l.length := by
  induction l with
  | nil => simp [sumBy]
  | cons e l ih =>
    simp only [sumBy, List.length_cons]
    have : Store.weight e ≤ 2 := by unfold Store.weight; split <;> omega
    omega

theorem Store.cost_le (s : Store) (k : Key) : s.cost k ≤ 2 * s.length := by
  unfold Store.cost
  have h1 := sumBy_weight_le (s.filter (fun e => decide (k <+: e.1)))
  have h2 := List.length_filter_le (fun (e : Key × Node) => decide (k <+: e.1)) s
  omega

/-- On a well-formed store `Walk` returns, in either mode and whatever the visitor does, for
every budget above twice the size of the store plus one. -/
theorem Walk_returns {σ : Type} (fuel : Nat) (sftp : SFTP) (c : Client) (remote_path : String)
    (recursive : Bool) (process : σ → sftpFile → Option GoError × σ) (s : σ)
    (hc : sftp.client = some c) (hwf : recursive = true → c.store.WF)
    (hfuel : recursive = true → 2 * c.store.length + 2 ≤ fuel) :
    ∃ r, SFTP.Walk fuel sftp remote_path recursive process s = some r := by
  unfold SFTP.Walk
  rw [hc]
  simp only
  cases recursive with
  | false =>
    simp only [Bool.false_eq_true, if_false]
    rcases hl : c.ReadDir (path.Join sftp.Config.Path remote_path) with ⟨res, cA⟩
    cases res with
    | error err => exact ⟨_, rfl⟩
    | ok entries => exact ⟨_, rfl⟩
  | true =>
    simp only [if_true]
    have hwf1 := hwf rfl
    have hfuel1 := hfuel rfl
    rcases hw : c.Walk (path.Join sftp.Config.Path remote_path) with ⟨walker, cA⟩
    have hstore : cA.store = c.store ∧ walker.descend = false ∧
        (∀ it ∈ walker.stack, it.OK c.store) ∧
        walker.potential c.store ≤ 2 * c.store.length + 1 := by
      unfold Client.Walk at hw
      have hls := Client.Lstat_store c (path.Join sftp.Config.Path remote_path)
      unfold Client.Lstat at hw hls
      cases hg : Store.get c.store (resolve (path.Join sftp.Config.Path remote_path)) with
      | none =>
        rw [hg] at hw hls
        simp only [Prod.mk.injEq] at hw
        obtain ⟨hw1, hw2⟩ := hw
        subst hw1; subst hw2
        refine ⟨hls, rfl, ?_, ?_⟩
        · intro it hit
          simp at hit
          subst hit
          intro habs
          cases habs
        · simp [Walker.potential, sumBy, WalkItem.cost]
      | some n =>
        rw [hg] at hw hls
        simp only [Prod.mk.injEq] at hw
        obtain ⟨hw1, hw2⟩ := hw
        subst hw1; subst hw2
        refine ⟨hls, rfl, ?_, ?_⟩
        · intro it hit
          simp at hit
          subst hit
          intro _
          exact ⟨n, Store.mem_of_get _ _ _ hg, rfl⟩
        · have := Store.cost_le c.store (resolve (path.Join sftp.Config.Path remote_path))
          simp only [Walker.potential, sumBy, WalkItem.cost, Bool.false_and, Bool.false_eq_true,
            if_false, Option.isSome_none]
          omega
    obtain ⟨h1, h2, h3, h4⟩ := hstore
    obtain ⟨r, hr⟩ := walkRecursive_returns process (path.Join sftp.Config.Path remote_path)
      fuel walker cA s (by rw [h1]; exact hwf1) (by rw [h2]; intro h; cases h)
      (by rw [h1]; exact h3) (by rw [h1]; omega)
    simp only
    rw [hr]
    exact ⟨_, rfl⟩

/-- C3: on a live session `Walk` presents a definite list `fs` of entries to a visitor that
accepts everything, and returns (in recursive mode: on a well-formed store, for every budget
above twice the size of the store plus one).  Every visitor that accepts the first `n - 1`
entries of `fs` and returns the error `e` on the `n`-th is called on exactly the first `n`
entries of `fs`, on no further entry, and `Walk` returns exactly `e`. -/
theorem Walk_stops_at_error (fuel : Nat) (sftp : SFTP) (c : Client) (remote_path : String)
    (recursive : Bool) (hc : sftp.client = some c) (hwf : recursive = true → c.store.WF)
    (hfuel : recursive = true → 2 * c.store.length + 2 ≤ fuel) :
    ∃ r0 sftp0 fs,
      SFTP.Walk fuel sftp remote_path recursive (noting acceptAll) ((), []) =
        some (r0, sftp0, ((), fs)) ∧
      ∀ (σ : Type) (process : σ → sftpFile → Option GoError × σ) (e : GoError) (n : Nat)
        (s s1 : σ), 0 < n → n ≤ fs.length →
        acceptsAll process s (fs.take (n - 1)) = some s1 →
        (fs.get? (n - 1)).map (fun f => (process s1 f).1) = some (some e) →
        ∃ sftp1 s2, SFTP.Walk fuel sftp remote_path recursive (noting process) (s, []) =
          some (.error e, sftp1, (s2, fs.take n)) := by
  obtain ⟨r, hr⟩ := Walk_returns fuel sftp c remote_path recursive (noting acceptAll) ((), [])
    hc hwf hfuel
  obtain ⟨r0, sftp0, u, fs⟩ := r
  refine ⟨r0, sftp0, fs, hr, ?_⟩
  intro σ process e n s s1 h0 hn hacc hrej
  exact Walk_stops_of_run fuel sftp sftp0 remote_path recursive process e n s s1 r0 fs hr
    h0 hn hacc hrej

/-- C3 on the sample store, with a visitor that rejects its second entry: the recursive walk
stops after `.` and `a.txt` and returns the visitor's error. -/
theorem Walk_stops_at_error_witness :
    sampleSFTP.client = some sampleClient ∧ sampleClient.store.WF ∧
      2 * sampleClient.store.length + 2 ≤ 12 ∧
      ∃ sftp1 s2, SFTP.Walk 12 sampleSFTP "" true (noting (rejectNth 2 "stop")) (0, []) =
        some (.error "stop", sftp1, (s2, [⟨0, 1, "."⟩, ⟨3, 2, "a.txt"⟩])) := by
  refine ⟨rfl, by decide, by decide, ?_⟩
  obtain ⟨r0, sftp0, fs, hrun, hall⟩ :=
    Walk_stops_at_error 12 sampleSFTP sampleClient "" true rfl (fun _ => by decide)
      (fun _ => by decide)
  have hval : (SFTP.Walk 12 sampleSFTP "" true (noting acceptAll) ((), [])).map
      (fun r => r.2.2.2) =
      some [⟨0, 1, "."⟩, ⟨3, 2, "a.txt"⟩, ⟨0, 3, "sub"⟩, ⟨1, 4, "sub/b.txt"⟩] := by
    decide
  rw [hrun] at hval
  simp only [Option.map_some', Option.some.injEq] at hval
  subst hval
  exact hall Nat (rejectNth 2 "stop") "stop" 2 0 1 (by decide) (by decide) (by decide)
    (by decide)
